import Mathlib

/-!
Verification of the OS-simulator core engines (CPU scheduling, contiguous
memory allocation, disk-queue processing) from `script.js`, shallowly embedded
in Lean.  JavaScript numbers are modelled as `ℤ` (all arithmetic involved is
exact small-integer arithmetic) except disk seek times, which the source
computes as `seekDistance * 0.1` and which we model in `ℚ`.  `Array.prototype.sort`
(stable in modern engines, and the comparators used are total preorders) is
modelled by `List.insertionSort`, which is stable.  The in-place mutation of the
global arrays is modelled by state passing: each engine takes the collection
and returns the updated collection.  Loops with no a-priori bound (`while` in
`scheduleSJF`/`schedulePriority`/`scheduleRoundRobin`) are modelled with fuel,
returning `none` when the fuel is exhausted; `some` results are exactly the
values the JavaScript returns when it terminates.
-/

namespace OSim

/-- Status of a memory block: `'allocated'` or `'free'`. -/
inductive BlockStatus where
  | allocated
  | free
deriving DecidableEq, Repr

/-- A memory block, as in the global `memoryBlocks` array:
`{ id, processName, size, startAddress, endAddress, status }`.
`processName` is `none` for the `null` owner of free blocks. -/
structure MemoryBlock where
  id : ℕ
  processName : Option String
  size : ℤ
  startAddress : ℤ
  endAddress : ℤ
  status : BlockStatus
deriving DecidableEq, Repr

/-- A process, as built by `addProcess`:
`{ id, name, arrivalTime, burstTime, priority, remainingTime, waitingTime,
turnaroundTime, completionTime }` plus the `startTime` property the schedulers
attach (0 before a scheduler writes it). -/
structure Process where
  id : ℕ
  name : String
  arrivalTime : ℤ
  burstTime : ℤ
  priority : ℤ
  remainingTime : ℤ
  waitingTime : ℤ
  turnaroundTime : ℤ
  completionTime : ℤ
  startTime : ℤ
deriving DecidableEq, Repr

/-- One Gantt-chart entry: `{...process, startTime, duration}` as pushed onto
`scheduled` by every scheduler.  The spread copies the whole process record. -/
structure Slice extends Process where
  duration : ℤ
deriving DecidableEq, Repr

/-- A disk request, as built by `addDiskRequest`:
`{ id, cylinder, algorithm, seekTime, processed }`. -/
structure DiskRequest where
  id : ℕ
  cylinder : ℤ
  algorithm : String
  seekTime : ℚ
  processed : Bool
deriving DecidableEq, Repr

/-- Comparator `(a, b) => key a - key b` (ascending) on processes, as a
relation for the stable sort. -/
def keyLE (key : Process → ℤ) (a b : Process) : Prop := key a ≤ key b

instance (key : Process → ℤ) : DecidableRel (keyLE key) :=
  fun a b => inferInstanceAs (Decidable (key a ≤ key b))

instance (key : Process → ℤ) : IsTotal Process (keyLE key) :=
  ⟨fun a b => Int.le_total (key a) (key b)⟩

instance (key : Process → ℤ) : IsTrans Process (keyLE key) :=
  ⟨fun _ _ _ => Int.le_trans⟩

/-- Comparator `(a, b) => key a - key b` (ascending) on memory blocks. -/
def bKeyLE (key : MemoryBlock → ℤ) (a b : MemoryBlock) : Prop := key a ≤ key b

instance (key : MemoryBlock → ℤ) : DecidableRel (bKeyLE key) :=
  fun a b => inferInstanceAs (Decidable (key a ≤ key b))

instance (key : MemoryBlock → ℤ) : IsTotal MemoryBlock (bKeyLE key) :=
  ⟨fun a b => Int.le_total (key a) (key b)⟩

instance (key : MemoryBlock → ℤ) : IsTrans MemoryBlock (bKeyLE key) :=
  ⟨fun _ _ _ => Int.le_trans⟩

/-- Comparator `(a, b) => key b - key a` (descending) on memory blocks, used by
worst-fit. -/
def bKeyGE (key : MemoryBlock → ℤ) (a b : MemoryBlock) : Prop := key b ≤ key a

instance (key : MemoryBlock → ℤ) : DecidableRel (bKeyGE key) :=
  fun a b => inferInstanceAs (Decidable (key b ≤ key a))

instance (key : MemoryBlock → ℤ) : IsTotal MemoryBlock (bKeyGE key) :=
  ⟨fun a b => Int.le_total (key b) (key a)⟩

instance (key : MemoryBlock → ℤ) : IsTrans MemoryBlock (bKeyGE key) :=
  ⟨fun _ _ _ h h' => Int.le_trans h' h⟩

/-! ## CPU scheduling (`scheduleFCFS`, `scheduleSJF`, `schedulePriority`,
`scheduleRoundRobin`) -/

/-- Body of the `forEach` in `scheduleFCFS`: run each process to completion in
order, idling forward to its arrival when the CPU is free early. -/
def fcfsGo : List Process → ℤ → List Slice
  | [], _ => []
  | p :: rest, currentTime =>
    let t := if currentTime < p.arrivalTime then p.arrivalTime else currentTime
    let completionTime := t + p.burstTime
    let done : Process :=
      { p with startTime := t, completionTime := completionTime,
               turnaroundTime := completionTime - p.arrivalTime,
               waitingTime := (completionTime - p.arrivalTime) - p.burstTime }
    { toProcess := done, duration := p.burstTime } :: fcfsGo rest completionTime

/-- `scheduleFCFS`: sort by arrival time, then run each process to
completion in that order. -/
def scheduleFCFS (processList : List Process) : List Slice :=
  fcfsGo (List.insertionSort (keyLE fun p => p.arrivalTime) processList) 0

/-- Shared loop of `scheduleSJF` / `schedulePriority` (the two functions are
identical except for the ready-queue sort key).  One fuel unit is one iteration
of the `while` loop: feed arrivals to the ready queue; if the queue is empty
jump the clock to the next arrival and `continue`; otherwise sort the queue by
the key and run its head to completion. -/
def npGo (key : Process → ℤ) : ℕ → List Process → List Process → ℤ → Option (List Slice)
  | 0, _, _, _ => none
  | fuel + 1, pending, ready, currentTime =>
    if pending = [] ∧ ready = [] then some []
    else
      match List.insertionSort (keyLE key)
          (ready ++ pending.takeWhile fun p => p.arrivalTime ≤ currentTime) with
      | [] =>
        match pending.dropWhile (fun p => p.arrivalTime ≤ currentTime) with
        | [] => some []
        | q :: qrest => npGo key fuel (q :: qrest) [] q.arrivalTime
      | proc :: readyRest =>
        (npGo key fuel (pending.dropWhile fun p => p.arrivalTime ≤ currentTime) readyRest
            (currentTime + proc.burstTime)).map
          fun scheduled =>
            { toProcess :=
                { proc with startTime := currentTime,
                            completionTime := currentTime + proc.burstTime,
                            turnaroundTime := (currentTime + proc.burstTime) - proc.arrivalTime,
                            waitingTime :=
                              ((currentTime + proc.burstTime) - proc.arrivalTime) -
                                proc.burstTime },
              duration := proc.burstTime } :: scheduled

/-- `scheduleSJF`: non-preemptive shortest-job-first. -/
def scheduleSJF (fuel : ℕ) (processList : List Process) : Option (List Slice) :=
  npGo (fun p => p.burstTime) fuel
    (List.insertionSort (keyLE fun p => p.arrivalTime) processList) [] 0

/-- `schedulePriority`: non-preemptive priority scheduling (lower value wins). -/
def schedulePriority (fuel : ℕ) (processList : List Process) : Option (List Slice) :=
  npGo (fun p => p.priority) fuel
    (List.insertionSort (keyLE fun p => p.arrivalTime) processList) [] 0

/-- One pass of the `for (let process of queue)` loop in `scheduleRoundRobin`:
every process that still has remaining time and has arrived by the current
clock runs for `min(quantum, remainingTime)`; a slice is emitted (a snapshot
taken before the updates), the clock advances, and completion data is recorded
the instant `remainingTime` reaches 0. -/
def rrVisit (quantum : ℤ) : List Process → ℤ → List Process × ℤ × List Slice
  | [], currentTime => ([], currentTime, [])
  | p :: rest, currentTime =>
    if 0 < p.remainingTime ∧ p.arrivalTime ≤ currentTime then
      ((if p.remainingTime - min quantum p.remainingTime = 0 then
          { p with remainingTime := p.remainingTime - min quantum p.remainingTime,
                   completionTime := currentTime + min quantum p.remainingTime,
                   turnaroundTime :=
                     (currentTime + min quantum p.remainingTime) - p.arrivalTime,
                   waitingTime :=
                     ((currentTime + min quantum p.remainingTime) - p.arrivalTime) -
                       p.burstTime }
        else { p with remainingTime := p.remainingTime - min quantum p.remainingTime }) ::
          (rrVisit quantum rest (currentTime + min quantum p.remainingTime)).1,
       (rrVisit quantum rest (currentTime + min quantum p.remainingTime)).2.1,
       ({ toProcess := { p with startTime := currentTime },
          duration := min quantum p.remainingTime } : Slice) ::
         (rrVisit quantum rest (currentTime + min quantum p.remainingTime)).2.2)
    else
      (p :: (rrVisit quantum rest currentTime).1,
       (rrVisit quantum rest currentTime).2.1,
       (rrVisit quantum rest currentTime).2.2)

/-- The `while (queue.some(p => p.remainingTime > 0))` loop of
`scheduleRoundRobin`; one fuel unit per iteration. -/
def rrLoop (quantum : ℤ) : ℕ → List Process → ℤ → List Slice → Option (List Slice × List Process)
  | 0, _, _, _ => none
  | fuel + 1, queue, currentTime, scheduled =>
    if queue.any fun p => 0 < p.remainingTime then
      rrLoop quantum fuel (rrVisit quantum queue currentTime).1
        (rrVisit quantum queue currentTime).2.1
        (scheduled ++ (rrVisit quantum queue currentTime).2.2)
    else some (scheduled, queue)

/-- `scheduleRoundRobin`: sort by arrival, reset every `remainingTime` to the
burst time, then cycle.  Returns the emitted slices together with the final
state of the queue's process records. -/
def scheduleRoundRobin (fuel : ℕ) (processList : List Process) (quantum : ℤ) :
    Option (List Slice × List Process) :=
  rrLoop quantum fuel
    ((List.insertionSort (keyLE fun p => p.arrivalTime) processList).map
      fun p => { p with remainingTime := p.burstTime }) 0 []

/-! ## Memory management (`allocateMemory`, `deallocateMemory`,
`compactMemory`) -/

/-- Allocation algorithm selector (`'first' | 'best' | 'worst'`). -/
inductive AllocAlg where
  | first
  | best
  | worst
deriving DecidableEq, Repr

/-- The `switch (algorithm)` block of `allocateMemory`: pick the block to carve
the allocation out of.  First-fit takes the first free block that fits;
best-fit stably sorts the fitting free blocks by ascending size and takes the
head; worst-fit sorts descending. -/
def selectBlock (algorithm : AllocAlg) (processSize : ℤ) (blocks : List MemoryBlock) :
    Option MemoryBlock :=
  let freeBlocks := blocks.filter fun b => b.status = .free
  match algorithm with
  | .first => freeBlocks.find? fun b => processSize ≤ b.size
  | .best =>
    (List.insertionSort (bKeyLE fun b => b.size)
      (freeBlocks.filter fun b => processSize ≤ b.size)).head?
  | .worst =>
    (List.insertionSort (bKeyGE fun b => b.size)
      (freeBlocks.filter fun b => processSize ≤ b.size)).head?

/-- `allocateMemory`: on success the selected free block is spliced out and
replaced by an allocated block of the requested size at the same start address
plus, when the selected block was strictly larger, a free remainder block; the
list is then re-sorted by start address.  On failure (`none`) the block list is
untouched. -/
def allocateMemory (algorithm : AllocAlg) (processSize : ℤ) (blocks : List MemoryBlock) :
    Option (List MemoryBlock) :=
  match selectBlock algorithm processSize blocks with
  | none => none
  | some selected =>
    let processName :=
      "P" ++ toString
        ((blocks.filter fun b => b.status = .allocated ∧ b.processName ≠ some "OS").length + 1)
    let newBlock : MemoryBlock :=
      ⟨blocks.length + 1, some processName, processSize, selected.startAddress,
        selected.startAddress + processSize, .allocated⟩
    let afterSplice := blocks.erase selected ++ [newBlock]
    let withRemainder :=
      if processSize < selected.size then
        afterSplice ++
          [⟨afterSplice.length + 1, none, selected.size - processSize,
            selected.startAddress + processSize, selected.endAddress, .free⟩]
      else afterSplice
    some (List.insertionSort (bKeyLE fun b => b.startAddress) withRemainder)

/-- `deallocateMemory`: keep only the blocks owned by `'OS'` and append one
large free block covering 128–1024. -/
def deallocateMemory (blocks : List MemoryBlock) : List MemoryBlock :=
  blocks.filter (fun b => b.processName = some "OS") ++ [⟨2, none, 896, 128, 1024, .free⟩]

/-- The `forEach` of `compactMemory`: repack the given blocks contiguously
starting at the given address, renumbering ids from `index + 1`; also returns
the final `currentAddress`. -/
def repackBlocks : List MemoryBlock → ℤ → ℕ → List MemoryBlock × ℤ
  | [], currentAddress, _ => ([], currentAddress)
  | b :: rest, currentAddress, index =>
    let b2 : MemoryBlock :=
      { b with id := index + 1, startAddress := currentAddress,
               endAddress := currentAddress + b.size }
    let out := repackBlocks rest (currentAddress + b.size) (index + 1)
    (b2 :: out.1, out.2)

/-- `compactMemory`: sort the allocated blocks by start address, repack them
from address 0 with no gaps, and append a single free block covering the rest
(only when `totalFree > 0`). -/
def compactMemory (blocks : List MemoryBlock) : List MemoryBlock :=
  let allocatedBlocks :=
    List.insertionSort (bKeyLE fun b => b.startAddress)
      (blocks.filter fun b => b.status = .allocated)
  let totalAllocated := (allocatedBlocks.map fun b => b.size).sum
  let totalFree := 1024 - totalAllocated
  let packed := repackBlocks allocatedBlocks 0 0
  if 0 < totalFree then
    packed.1 ++ [⟨packed.1.length + 1, none, totalFree, packed.2, 1024, .free⟩]
  else packed.1

/-- The initial `memoryBlocks` array: one reserved block owned by `'OS'`. -/
def initialMemoryBlocks : List MemoryBlock :=
  [⟨1, some "OS", 128, 0, 128, .allocated⟩]

/-- One call into the memory engine. -/
inductive MemOp where
  | alloc (algorithm : AllocAlg) (processSize : ℤ)
  | dealloc
  | compact
deriving DecidableEq, Repr

/-- Effect of one call on the `memoryBlocks` state.  A failed allocation leaves
the state untouched (the source only logs). -/
def memStep (op : MemOp) (blocks : List MemoryBlock) : List MemoryBlock :=
  match op with
  | .alloc algorithm processSize => (allocateMemory algorithm processSize blocks).getD blocks
  | .dealloc => deallocateMemory blocks
  | .compact => compactMemory blocks

/-- The `memoryBlocks` state after a sequence of calls, starting from the
initial layout. -/
def memRun (ops : List MemOp) : List MemoryBlock :=
  ops.foldl (fun blocks op => memStep op blocks) initialMemoryBlocks

/-- Total of the `size` fields. -/
def sumSizes (blocks : List MemoryBlock) : ℤ :=
  (blocks.map fun b => b.size).sum

/-! ## Disk management (`processDiskRequests`) -/

/-- The `forEach` of `processDiskRequests`: service the pending requests in
submission order, setting `seekTime = |cylinder - currentHead| * 0.1` and
`processed = true`, advancing the head to each serviced cylinder and summing
the seek distances.  Returns (updated requests, totalSeekDistance, final head
position). -/
def serviceRequests : List DiskRequest → ℤ → List DiskRequest × ℤ × ℤ
  | [], currentHeadPosition => ([], 0, currentHeadPosition)
  | r :: rest, currentHeadPosition =>
    let seekDistance := |r.cylinder - currentHeadPosition|
    let r2 : DiskRequest :=
      { r with seekTime := (seekDistance : ℚ) * (1 / 10), processed := true }
    let out := serviceRequests rest r.cylinder
    (r2 :: out.1, seekDistance + out.2.1, out.2.2)

/-- `processDiskRequests`: reads the selected algorithm but processes the
pending queue in submission order regardless.  Fails (alert, no mutation) when
there are no pending requests.  Returns (updated pending requests,
totalSeekDistance, final head position, average seek time). -/
def processDiskRequests (algorithm : String) (diskRequests : List DiskRequest)
    (headPosition : ℤ) : Option (List DiskRequest × ℤ × ℤ × ℚ) :=
  let pendingRequests := diskRequests.filter fun r => !r.processed
  if pendingRequests.length = 0 then none
  else
    let out := serviceRequests pendingRequests headPosition
    let avgSeekTime := ((out.1.map fun r => r.seekTime).sum) / (pendingRequests.length : ℚ)
    some (out.1, out.2.1, out.2.2, avgSeekTime)

/-- Modelled from the spec: the reference seek-distance sequence
`|cylinder_i - head_{i-1}|` for a cylinder list and a start head position,
used to state the refinement claims about the disk run. -/
def specSeekDistances : List ℤ → ℤ → List ℤ
  | [], _ => []
  | c :: cs, h => |c - h| :: specSeekDistances cs c

/-! ## Concrete scenario data -/

/-- Scenario process (P1, arrival 0, burst 5) as `addProcess` builds it. -/
def scenP1 : Process := ⟨1, "P1", 0, 5, 1, 5, 0, 0, 0, 0⟩

/-- Scenario process (P2, arrival 1, burst 3). -/
def scenP2 : Process := ⟨2, "P2", 1, 3, 1, 3, 0, 0, 0, 0⟩

/-- Scenario process (P3, arrival 2, burst 8). -/
def scenP3 : Process := ⟨3, "P3", 2, 8, 1, 8, 0, 0, 0, 0⟩

/-- A process that arrives at time 1 (burst 1): valid input on which the
round-robin loop never advances its clock. -/
def rrStuckProcess : Process := ⟨1, "P1", 1, 1, 1, 1, 0, 0, 0, 0⟩

/-- Pending disk-request queue of Scenario D: cylinders 98, 183, 37, 122. -/
def scenDiskRequests : List DiskRequest :=
  [⟨1, 98, "fcfs", 0, false⟩, ⟨2, 183, "fcfs", 0, false⟩,
   ⟨3, 37, "fcfs", 0, false⟩, ⟨4, 122, "fcfs", 0, false⟩]

/-- A block list for Scenario C: free blocks of sizes 50, 200 and 100 (in that
address order) between allocated ones, summing to the full 1024 KB space. -/
def scenBestFitBlocks : List MemoryBlock :=
  [⟨1, some "OS", 128, 0, 128, .allocated⟩,
   ⟨2, none, 50, 128, 178, .free⟩,
   ⟨3, some "P1", 100, 178, 278, .allocated⟩,
   ⟨4, none, 200, 278, 478, .free⟩,
   ⟨5, some "P2", 446, 478, 924, .allocated⟩,
   ⟨6, none, 100, 924, 1024, .free⟩]

/-- Two equal-size free blocks listed in decreasing address order: best-fit on
this (unsorted) list picks the one at address 100, not the lowest address. -/
def tieBreakBlocks : List MemoryBlock :=
  [⟨1, none, 10, 100, 110, .free⟩, ⟨2, none, 10, 0, 10, .free⟩]

/-- Two allocated blocks one of which has a negative size: compaction is not
idempotent on this list because the repacked addresses are out of order. -/
def negSizeBlocks : List MemoryBlock :=
  [⟨1, some "A", -5, 0, 0, .allocated⟩, ⟨2, some "B", 3, 0, 3, .allocated⟩]

end OSim

namespace OSim

/-! ## C8: the FCFS scenario -/

/-- C8: for the input list (P1, arrival 0, burst 5), (P2, arrival 1, burst 3),
(P3, arrival 2, burst 8), `scheduleFCFS` returns completion times 5, 8, 16 and
waiting times 0, 4, 6 respectively. -/
theorem c8_fcfs_scenario :
    (scheduleFCFS [scenP1, scenP2, scenP3]).map
        (fun s => (s.name, s.completionTime, s.waitingTime)) =
      [("P1", 5, 0), ("P2", 8, 4), ("P3", 16, 6)] := by
  decide

/-! ## C9: the disk run ignores the selected algorithm -/

/-- C9: `processDiskRequests` reads the selected algorithm but its result does
not depend on it: two runs on the same pending queue and head position that
differ only in the algorithm selection return identical service order, seek
times, total seek distance and final head position. -/
theorem c9_disk_algorithm_independent
    (algorithm1 algorithm2 : String) (diskRequests : List DiskRequest) (headPosition : ℤ) :
    processDiskRequests algorithm1 diskRequests headPosition =
      processDiskRequests algorithm2 diskRequests headPosition := rfl

/-! ## C1: the round-robin loop does not always terminate -/

/-- The round-robin pass does nothing when the only process has not arrived. -/
lemma rrVisit_stuck :
    rrVisit 1 [{ rrStuckProcess with remainingTime := rrStuckProcess.burstTime }] 0 =
      ([{ rrStuckProcess with remainingTime := rrStuckProcess.burstTime }], 0, []) := by
  decide

/-- With the single not-yet-arrived process, the loop state is a fixed point
while the loop condition stays true, so no amount of fuel produces a result. -/
lemma rrLoop_stuck (fuel : ℕ) (acc : List Slice) :
    rrLoop 1 fuel [{ rrStuckProcess with remainingTime := rrStuckProcess.burstTime }] 0 acc =
      none := by
  induction fuel generalizing acc with
  | zero => rfl
  | succ fuel ih =>
    rw [rrLoop]
    rw [if_pos (by decide)]
    rw [rrVisit_stuck]
    show rrLoop 1 fuel _ 0 (acc ++ []) = none
    rw [List.append_nil]
    exact ih acc

/-- C1 (code bug): on the valid input consisting of the single process
(arrival 1, burst 1) with quantum 1, `scheduleRoundRobin`'s wrap-around cycle
never terminates: the clock never advances past 0 because no process has
arrived, so the `while` loop runs forever (`none` for every fuel bound). -/
theorem c1_rr_nonterminating (fuel : ℕ) :
    scheduleRoundRobin fuel [rrStuckProcess] 1 = none := by
  have h : (List.insertionSort (keyLE fun p => p.arrivalTime) [rrStuckProcess]).map
      (fun p => { p with remainingTime := p.burstTime }) =
      [{ rrStuckProcess with remainingTime := rrStuckProcess.burstTime }] := by decide
  rw [scheduleRoundRobin]
  rw [h]
  exact rrLoop_stuck fuel []

/-! ## C6: failed allocation is atomic -/

/-- C6: when no free block is at least the requested size, `allocateMemory`
fails with no candidate (for every fit algorithm) and the block list is left
exactly as it was: allocation failure causes no mutation. -/
theorem c6_alloc_failure_atomic (algorithm : AllocAlg) (processSize : ℤ)
    (blocks : List MemoryBlock)
    (h : ∀ b ∈ blocks, b.status = .free → b.size < processSize) :
    allocateMemory algorithm processSize blocks = none ∧
      memStep (.alloc algorithm processSize) blocks = blocks := by
  have hfree : ∀ b ∈ blocks.filter (fun b => b.status = .free), ¬ (processSize ≤ b.size) := by
    intro b hb
    rw [List.mem_filter] at hb
    have := h b hb.1 (by simpa using hb.2)
    omega
  have hsel : selectBlock algorithm processSize blocks = none := by
    cases algorithm with
    | first =>
      simp only [selectBlock]
      rw [List.find?_eq_none]
      intro b hb
      simpa using hfree b hb
    | best =>
      simp only [selectBlock]
      have : (blocks.filter fun b => b.status = .free).filter
          (fun b => processSize ≤ b.size) = [] := by
        rw [List.filter_eq_nil_iff]
        intro b hb
        simpa using hfree b hb
      rw [this]
      rfl
    | worst =>
      simp only [selectBlock]
      have : (blocks.filter fun b => b.status = .free).filter
          (fun b => processSize ≤ b.size) = [] := by
        rw [List.filter_eq_nil_iff]
        intro b hb
        simpa using hfree b hb
      rw [this]
      rfl
  constructor
  · rw [allocateMemory, hsel]
  · rw [memStep, allocateMemory, hsel]
    rfl

/-- Witness for C6: on the initial layout (no free block at all) a 100 KB
request fails and leaves the list unchanged. -/
theorem c6_alloc_failure_atomic_witness :
    (∀ b ∈ initialMemoryBlocks, b.status = .free → b.size < 100) ∧
      (allocateMemory .first 100 initialMemoryBlocks = none ∧
        memStep (.alloc .first 100) initialMemoryBlocks = initialMemoryBlocks) :=
  ⟨by decide, c6_alloc_failure_atomic .first 100 initialMemoryBlocks (by decide)⟩

/-! ## C3: the disk run in submission order -/

/-- Servicing preserves each request's identity, cylinder and tag, in order. -/
lemma serviceRequests_map_key (reqs : List DiskRequest) :
    ∀ h0 : ℤ, ((serviceRequests reqs h0).1.map fun r => (r.id, r.cylinder, r.algorithm)) =
      reqs.map fun r => (r.id, r.cylinder, r.algorithm) := by
  induction reqs with
  | nil => intro h0; rfl
  | cons r rest ih => intro h0; simp [serviceRequests, ih r.cylinder]

/-- Every serviced request is marked processed. -/
lemma serviceRequests_processed (reqs : List DiskRequest) :
    ∀ h0 : ℤ, ∀ r ∈ (serviceRequests reqs h0).1, r.processed = true := by
  induction reqs with
  | nil => intro h0 r hr; simp [serviceRequests] at hr
  | cons q rest ih =>
    intro h0 r hr
    simp only [serviceRequests, List.mem_cons] at hr
    rcases hr with h | h
    · rw [h]
    · exact ih q.cylinder r h

/-- The seek times are the per-step distances scaled by 0.1 ms/cylinder. -/
lemma serviceRequests_seekTimes (reqs : List DiskRequest) :
    ∀ h0 : ℤ, ((serviceRequests reqs h0).1.map fun r => r.seekTime) =
      (specSeekDistances (reqs.map fun r => r.cylinder) h0).map fun d => (d : ℚ) * (1 / 10) := by
  induction reqs with
  | nil => intro h0; rfl
  | cons r rest ih =>
    intro h0
    simp [serviceRequests, specSeekDistances, ih r.cylinder]

/-- The accumulated total seek distance is the sum of the per-step distances. -/
lemma serviceRequests_total (reqs : List DiskRequest) :
    ∀ h0 : ℤ, (serviceRequests reqs h0).2.1 =
      (specSeekDistances (reqs.map fun r => r.cylinder) h0).sum := by
  induction reqs with
  | nil => intro h0; rfl
  | cons r rest ih =>
    intro h0
    simp [serviceRequests, specSeekDistances, ih r.cylinder]

/-- The head ends at the last serviced cylinder (or stays put when there is
nothing to service). -/
lemma serviceRequests_finalHead (reqs : List DiskRequest) :
    ∀ h0 : ℤ, (serviceRequests reqs h0).2.2 =
      (reqs.map fun r => r.cylinder).getLastD h0 := by
  induction reqs with
  | nil => intro h0; rfl
  | cons r rest ih =>
    intro h0
    simp only [serviceRequests, List.map_cons, List.getLastD_cons]
    exact ih r.cylinder

/-- C3: on a non-empty all-pending queue, the run succeeds and services the
requests in submission order: identities and cylinders are kept in order,
every request's processed flag becomes true, request `i` gets seek time
`|cylinder_i - head_{i-1}| * 0.1`, the returned total seek distance is
`sum |cylinder_i - head_{i-1}|`, and the head ends at the last cylinder. -/
theorem c3_disk_run (algorithm : String) (reqs : List DiskRequest) (h0 : ℤ)
    (hne : reqs ≠ []) (hunp : ∀ r ∈ reqs, r.processed = false) :
    processDiskRequests algorithm reqs h0 =
      some ((serviceRequests reqs h0).1, (serviceRequests reqs h0).2.1,
            (serviceRequests reqs h0).2.2,
            (((serviceRequests reqs h0).1.map fun r => r.seekTime).sum) / (reqs.length : ℚ)) ∧
    ((serviceRequests reqs h0).1.map fun r => (r.id, r.cylinder, r.algorithm)) =
      (reqs.map fun r => (r.id, r.cylinder, r.algorithm)) ∧
    (∀ r ∈ (serviceRequests reqs h0).1, r.processed = true) ∧
    ((serviceRequests reqs h0).1.map fun r => r.seekTime) =
      ((specSeekDistances (reqs.map fun r => r.cylinder) h0).map fun d => (d : ℚ) * (1 / 10)) ∧
    (serviceRequests reqs h0).2.1 =
      (specSeekDistances (reqs.map fun r => r.cylinder) h0).sum ∧
    (serviceRequests reqs h0).2.2 = (reqs.map fun r => r.cylinder).getLastD h0 := by
  have hfilter : reqs.filter (fun r => !r.processed) = reqs := by
    rw [List.filter_eq_self]
    intro r hr
    simp [hunp r hr]
  refine ⟨?_, serviceRequests_map_key reqs h0, serviceRequests_processed reqs h0,
    serviceRequests_seekTimes reqs h0, serviceRequests_total reqs h0,
    serviceRequests_finalHead reqs h0⟩
  rw [processDiskRequests]
  rw [hfilter]
  rw [if_neg (by simpa using hne)]

/-- Witness for C3: Scenario D, head 50 and pending cylinders 98, 183, 37,
122 in submission order; additionally checks the claimed total 364. -/
theorem c3_disk_run_witness :
    (scenDiskRequests ≠ [] ∧ ∀ r ∈ scenDiskRequests, r.processed = false) ∧
      (processDiskRequests "scan" scenDiskRequests 50 =
        some ((serviceRequests scenDiskRequests 50).1, (serviceRequests scenDiskRequests 50).2.1,
              (serviceRequests scenDiskRequests 50).2.2,
              (((serviceRequests scenDiskRequests 50).1.map fun r => r.seekTime).sum) /
                (scenDiskRequests.length : ℚ))) ∧
      (serviceRequests scenDiskRequests 50).2.1 = 364 ∧
      (serviceRequests scenDiskRequests 50).2.2 = 122 :=
  ⟨⟨by decide, by decide⟩,
    (c3_disk_run "scan" scenDiskRequests 50 (by decide) (by decide)).1,
    by decide, by decide⟩

/-! ## C7: compaction idempotence -/

/-- Repacking ends at the start address plus the total size. -/
lemma repackBlocks_snd (l : List MemoryBlock) :
    ∀ (a : ℤ) (i : ℕ), (repackBlocks l a i).2 = a + sumSizes l := by
  induction l with
  | nil => intro a i; simp [repackBlocks, sumSizes]
  | cons b rest ih =>
    intro a i
    simp only [repackBlocks, sumSizes, List.map_cons, List.sum_cons] at *
    rw [ih (a + b.size) (i + 1)]
    ring

/-- Repacking preserves the total size. -/
lemma sumSizes_repack (l : List MemoryBlock) :
    ∀ (a : ℤ) (i : ℕ), sumSizes (repackBlocks l a i).1 = sumSizes l := by
  induction l with
  | nil => intro a i; rfl
  | cons b rest ih =>
    intro a i
    simp only [repackBlocks, sumSizes, List.map_cons, List.sum_cons] at *
    rw [ih (a + b.size) (i + 1)]

/-- Repacking preserves each block's status. -/
lemma repackBlocks_allocated (l : List MemoryBlock)
    (hl : ∀ b ∈ l, b.status = .allocated) :
    ∀ (a : ℤ) (i : ℕ), ∀ b ∈ (repackBlocks l a i).1, b.status = .allocated := by
  induction l with
  | nil => intro a i b hb; simp [repackBlocks] at hb
  | cons q rest ih =>
    intro a i b hb
    simp only [repackBlocks, List.mem_cons] at hb
    rcases hb with h | h
    · rw [h]; exact hl q (by simp)
    · exact ih (fun x hx => hl x (by simp [hx])) (a + q.size) (i + 1) b h

/-- All repacked blocks start at or after the starting address when the sizes
are nonnegative. -/
lemma repackBlocks_start_ge (l : List MemoryBlock) (hl : ∀ b ∈ l, 0 ≤ b.size) :
    ∀ (a : ℤ) (i : ℕ), ∀ b ∈ (repackBlocks l a i).1, a ≤ b.startAddress := by
  induction l with
  | nil => intro a i b hb; simp [repackBlocks] at hb
  | cons q rest ih =>
    intro a i b hb
    simp only [repackBlocks, List.mem_cons] at hb
    rcases hb with h | h
    · rw [h]
    · have hq : 0 ≤ q.size := hl q (by simp)
      have := ih (fun x hx => hl x (by simp [hx])) (a + q.size) (i + 1) b h
      omega

/-- The repacked list is sorted by start address when the sizes are
nonnegative. -/
lemma repackBlocks_sorted (l : List MemoryBlock) (hl : ∀ b ∈ l, 0 ≤ b.size) :
    ∀ (a : ℤ) (i : ℕ),
      List.Pairwise (bKeyLE fun b => b.startAddress) (repackBlocks l a i).1 := by
  induction l with
  | nil => intro a i; simp [repackBlocks]
  | cons q rest ih =>
    intro a i
    simp only [repackBlocks]
    refine List.Pairwise.cons ?_ (ih (fun x hx => hl x (by simp [hx])) (a + q.size) (i + 1))
    intro b hb
    have hq : 0 ≤ q.size := hl q (by simp)
    have := repackBlocks_start_ge rest (fun x hx => hl x (by simp [hx])) (a + q.size) (i + 1) b hb
    show a ≤ b.startAddress
    omega

/-- Repacking an already repacked list changes nothing. -/
lemma repackBlocks_repack (l : List MemoryBlock) :
    ∀ (a : ℤ) (i : ℕ), repackBlocks (repackBlocks l a i).1 a i = repackBlocks l a i := by
  induction l with
  | nil => intro a i; rfl
  | cons q rest ih =>
    intro a i
    simp only [repackBlocks]
    rw [ih (a + q.size) (i + 1)]

/-- Unfolding of `compactMemory` in terms of its pieces. -/
lemma compactMemory_char (bs : List MemoryBlock) :
    compactMemory bs =
      if 0 < 1024 - sumSizes (List.insertionSort (bKeyLE fun b => b.startAddress)
          (bs.filter fun b => b.status = .allocated)) then
        (repackBlocks (List.insertionSort (bKeyLE fun b => b.startAddress)
            (bs.filter fun b => b.status = .allocated)) 0 0).1 ++
          [⟨(repackBlocks (List.insertionSort (bKeyLE fun b => b.startAddress)
                (bs.filter fun b => b.status = .allocated)) 0 0).1.length + 1, none,
            1024 - sumSizes (List.insertionSort (bKeyLE fun b => b.startAddress)
              (bs.filter fun b => b.status = .allocated)),
            (repackBlocks (List.insertionSort (bKeyLE fun b => b.startAddress)
                (bs.filter fun b => b.status = .allocated)) 0 0).2, 1024, .free⟩]
      else
        (repackBlocks (List.insertionSort (bKeyLE fun b => b.startAddress)
            (bs.filter fun b => b.status = .allocated)) 0 0).1 := rfl

/-- Counterexample to C7 as stated: on a block list containing an allocated
block of negative size, compacting twice does not equal compacting once (the
repacked addresses come out unsorted, so the second compaction reorders the
blocks). -/
theorem c7_counterexample :
    compactMemory (compactMemory negSizeBlocks) ≠ compactMemory negSizeBlocks := by
  decide

/-- C7 (amended): compaction is idempotent on every block list whose allocated
blocks all have nonnegative size. -/
theorem c7_compact_idempotent (blocks : List MemoryBlock)
    (h : ∀ b ∈ blocks, b.status = .allocated → 0 ≤ b.size) :
    compactMemory (compactMemory blocks) = compactMemory blocks := by
  have hallocA : ∀ b ∈ List.insertionSort (bKeyLE fun b => b.startAddress)
      (blocks.filter fun b => b.status = .allocated), b.status = .allocated := by
    intro b hb
    have hb' := (List.perm_insertionSort (bKeyLE fun b => b.startAddress) _).mem_iff.mp hb
    have hm := List.mem_filter.mp hb'
    simpa using hm.2
  have hsizeA : ∀ b ∈ List.insertionSort (bKeyLE fun b => b.startAddress)
      (blocks.filter fun b => b.status = .allocated), 0 ≤ b.size := by
    intro b hb
    have hb' := (List.perm_insertionSort (bKeyLE fun b => b.startAddress) _).mem_iff.mp hb
    have hm := List.mem_filter.mp hb'
    exact h b hm.1 (by simpa using hm.2)
  set A := List.insertionSort (bKeyLE fun b => b.startAddress)
      (blocks.filter fun b => b.status = .allocated) with hA
  have hP_alloc : ∀ b ∈ (repackBlocks A 0 0).1, b.status = .allocated :=
    repackBlocks_allocated A hallocA 0 0
  have hfilterP : (repackBlocks A 0 0).1.filter (fun b => b.status = .allocated) =
      (repackBlocks A 0 0).1 :=
    List.filter_eq_self.mpr (fun b hb => by simp [hP_alloc b hb])
  have hsortP : List.insertionSort (bKeyLE fun b => b.startAddress) (repackBlocks A 0 0).1 =
      (repackBlocks A 0 0).1 :=
    List.Sorted.insertionSort_eq (repackBlocks_sorted A hsizeA 0 0)
  have hsumP : sumSizes (repackBlocks A 0 0).1 = sumSizes A := sumSizes_repack A 0 0
  have hrr : repackBlocks (repackBlocks A 0 0).1 0 0 = repackBlocks A 0 0 :=
    repackBlocks_repack A 0 0
  by_cases hf : 0 < 1024 - sumSizes A
  · have hinner : compactMemory blocks =
        (repackBlocks A 0 0).1 ++
          [⟨(repackBlocks A 0 0).1.length + 1, none, 1024 - sumSizes A,
            (repackBlocks A 0 0).2, 1024, .free⟩] := by
      rw [compactMemory_char blocks, ← hA, if_pos hf]
    have hfilter2 : (compactMemory blocks).filter (fun b => b.status = .allocated) =
        (repackBlocks A 0 0).1 := by
      rw [hinner, List.filter_append, hfilterP]
      simp
    rw [compactMemory_char (compactMemory blocks), hfilter2, hsortP, hsumP, hrr, if_pos hf,
      hinner]
  · have hinner : compactMemory blocks = (repackBlocks A 0 0).1 := by
      rw [compactMemory_char blocks, ← hA, if_neg hf]
    have hfilter2 : (compactMemory blocks).filter (fun b => b.status = .allocated) =
        (repackBlocks A 0 0).1 := by
      rw [hinner, hfilterP]
    rw [compactMemory_char (compactMemory blocks), hfilter2, hsortP, hsumP, hrr, if_neg hf,
      hinner]

/-- Witness for C7: a concrete mixed layout with nonnegative sizes on which
compacting twice equals compacting once. -/
theorem c7_compact_idempotent_witness :
    (∀ b ∈ scenBestFitBlocks, b.status = .allocated → 0 ≤ b.size) ∧
      compactMemory (compactMemory scenBestFitBlocks) = compactMemory scenBestFitBlocks :=
  ⟨by decide, c7_compact_idempotent scenBestFitBlocks (by decide)⟩

/-! ## C5: best-fit selection -/

/-- An element returned by `head?` of a sorted list is a member of the
original list. -/
lemma mem_of_head?_insertionSort {α : Type} (r : α → α → Prop) [DecidableRel r]
    (l : List α) (a : α) (h : (List.insertionSort r l).head? = some a) : a ∈ l := by
  cases hs : List.insertionSort r l with
  | nil => rw [hs] at h; simp at h
  | cons x t =>
    rw [hs] at h
    simp only [List.head?_cons, Option.some.injEq] at h
    have hx : x ∈ List.insertionSort r l := by rw [hs]; exact List.mem_cons_self x t
    rw [← h]
    exact (List.perm_insertionSort r l).mem_iff.mp hx

/-- Splitting an appended conditional remainder into cons form. -/
lemma ite_append_shape {α : Type} (c : Prop) [Decidable c] (E : List α) (x y : α) :
    (if c then E ++ [x] ++ [y] else E ++ [x]) = E ++ x :: (if c then [y] else []) := by
  by_cases h : c
  · rw [if_pos h, if_pos h, List.append_assoc]
    rfl
  · rw [if_neg h, if_neg h]

/-- The head of the stable ascending-size sort of a start-sorted block list
has minimal size, and among the minimal-size blocks it has the lowest start
address. -/
lemma bestFit_head_min (l : List MemoryBlock)
    (hp : l.Pairwise fun a b => a.startAddress ≤ b.startAddress) :
    ∀ sel, (List.insertionSort (bKeyLE fun b => b.size) l).head? = some sel →
      ∀ c ∈ l, sel.size ≤ c.size ∧ (c.size = sel.size → sel.startAddress ≤ c.startAddress) := by
  induction l with
  | nil => intro sel hsel; simp [List.insertionSort] at hsel
  | cons b rest ih =>
    intro sel hsel c hc
    rw [List.insertionSort] at hsel
    cases hr : List.insertionSort (bKeyLE fun b => b.size) rest with
    | nil =>
      rw [hr] at hsel
      simp only [List.orderedInsert, List.head?_cons, Option.some.injEq] at hsel
      subst hsel
      have hrest : rest = [] := by
        have := congrArg List.length hr
        simpa using this
      subst hrest
      simp only [List.mem_singleton] at hc
      subst hc
      exact ⟨le_refl _, fun _ => le_refl _⟩
    | cons h' t' =>
      rw [hr] at hsel
      rw [List.orderedInsert] at hsel
      by_cases hbh : (bKeyLE fun b => b.size) b h'
      · rw [if_pos hbh] at hsel
        simp only [List.head?_cons, Option.some.injEq] at hsel
        rw [← hsel]
        rcases List.mem_cons.mp hc with rfl | hcr
        · exact ⟨le_refl _, fun _ => le_refl _⟩
        · have hmin := ih (hp.of_cons) h' (by rw [hr]; rfl) c hcr
          exact ⟨le_trans hbh hmin.1, fun _ => (List.pairwise_cons.mp hp).1 c hcr⟩
      · rw [if_neg hbh] at hsel
        simp only [List.head?_cons, Option.some.injEq] at hsel
        rw [← hsel]
        have hlt : h'.size < b.size := by
          have hn : ¬ (b.size ≤ h'.size) := hbh
          omega
        rcases List.mem_cons.mp hc with rfl | hcr
        · exact ⟨le_of_lt hlt, fun hcs => absurd hcs (by omega)⟩
        · exact ih (hp.of_cons) h' (by rw [hr]; rfl) c hcr

/-- Counterexample to C5 as stated: on an arbitrary (not address-sorted) block
list, best-fit breaks size ties by list position, not by lowest start address:
with two free 10 KB blocks listed with the one at address 100 first, a request
of 10 selects the block at address 100 even though an equal-size candidate
sits at address 0. -/
theorem c5_counterexample :
    selectBlock .best 10 tieBreakBlocks = some (MemoryBlock.mk 1 none 10 100 110 .free) ∧
      (⟨2, none, 10, 0, 10, .free⟩ : MemoryBlock) ∈ tieBreakBlocks ∧
      (⟨2, none, 10, 0, 10, .free⟩ : MemoryBlock).status = .free ∧
      (10 : ℤ) ≤ (⟨2, none, 10, 0, 10, .free⟩ : MemoryBlock).size ∧
      (⟨2, none, 10, 0, 10, .free⟩ : MemoryBlock).size = 10 ∧
      (⟨2, none, 10, 0, 10, .free⟩ : MemoryBlock).startAddress < 100 := by
  decide

/-- C5 (amended): on a block list sorted by start address (the order the
allocator maintains), a successful best-fit allocation selects a free block of
minimal sufficient size, breaking ties by lowest start address, and replaces
it by an allocated block of exactly the requested size at the same start plus,
when the candidate was strictly larger, a free block covering the remainder. -/
theorem c5_best_fit (blocks : List MemoryBlock) (processSize : ℤ)
    (hsorted : blocks.Pairwise fun a b => a.startAddress ≤ b.startAddress)
    (hpos : 0 < processSize) :
    ∀ result, allocateMemory .best processSize blocks = some result →
      ∃ sel, selectBlock .best processSize blocks = some sel ∧
        sel ∈ blocks ∧ sel.status = .free ∧ processSize ≤ sel.size ∧
        (∀ c ∈ blocks, c.status = .free → processSize ≤ c.size →
          sel.size ≤ c.size ∧ (c.size = sel.size → sel.startAddress ≤ c.startAddress)) ∧
        result.Perm (blocks.erase sel ++
          (⟨blocks.length + 1,
            some ("P" ++ toString ((blocks.filter fun b =>
              b.status = .allocated ∧ b.processName ≠ some "OS").length + 1)),
            processSize, sel.startAddress, sel.startAddress + processSize,
            .allocated⟩ : MemoryBlock) ::
          (if processSize < sel.size then
            [(⟨(blocks.erase sel ++
                [(⟨blocks.length + 1,
                  some ("P" ++ toString ((blocks.filter fun b =>
                    b.status = .allocated ∧ b.processName ≠ some "OS").length + 1)),
                  processSize, sel.startAddress, sel.startAddress + processSize,
                  .allocated⟩ : MemoryBlock)]).length + 1, none,
              sel.size - processSize, sel.startAddress + processSize, sel.endAddress,
              .free⟩ : MemoryBlock)]
           else [])) := by
  intro result hres
  rw [allocateMemory] at hres
  cases hsel : selectBlock .best processSize blocks with
  | none => rw [hsel] at hres; exact absurd hres (by simp)
  | some sel =>
    rw [hsel] at hres
    simp only [Option.some.injEq] at hres
    have hmemCand : sel ∈ (blocks.filter fun b => b.status = .free).filter
        fun b => processSize ≤ b.size := by
      have := hsel
      rw [selectBlock] at this
      exact mem_of_head?_insertionSort _ _ sel this
    have hmemFree := List.mem_filter.mp hmemCand
    have hmemBlocks := List.mem_filter.mp hmemFree.1
    have hcandSorted : ((blocks.filter fun b => b.status = .free).filter
        fun b => processSize ≤ b.size).Pairwise
          (fun a b => a.startAddress ≤ b.startAddress) :=
      (hsorted.filter _).filter _
    have hmin : ∀ c ∈ blocks, c.status = .free → processSize ≤ c.size →
        sel.size ≤ c.size ∧ (c.size = sel.size → sel.startAddress ≤ c.startAddress) := by
      intro c hc hcf hcs
      refine bestFit_head_min _ hcandSorted sel ?_ c ?_
      · have := hsel
        rw [selectBlock] at this
        exact this
      · rw [List.mem_filter]
        refine ⟨List.mem_filter.mpr ⟨hc, by simp [hcf]⟩, by simp [hcs]⟩
    refine ⟨sel, rfl, hmemBlocks.1, by simpa using hmemBlocks.2, by simpa using hmemFree.2,
      hmin, ?_⟩
    rw [← hres, ite_append_shape]
    exact List.perm_insertionSort _ _

/-- Witness for C5: Scenario C — free blocks of sizes 50, 200 and 100 with a
request of 80: the 100 KB block (at address 924) is selected and split into
allocated(80) at 924 plus free(20) at 1004. -/
theorem c5_best_fit_witness :
    (scenBestFitBlocks.Pairwise (fun a b => a.startAddress ≤ b.startAddress) ∧
      (0 : ℤ) < 80) ∧
    (∀ result, allocateMemory .best 80 scenBestFitBlocks = some result →
      ∃ sel, selectBlock .best 80 scenBestFitBlocks = some sel ∧
        sel ∈ scenBestFitBlocks ∧ sel.status = .free ∧ (80 : ℤ) ≤ sel.size ∧
        (∀ c ∈ scenBestFitBlocks, c.status = .free → (80 : ℤ) ≤ c.size →
          sel.size ≤ c.size ∧ (c.size = sel.size → sel.startAddress ≤ c.startAddress)) ∧
        result.Perm (scenBestFitBlocks.erase sel ++
          (⟨scenBestFitBlocks.length + 1,
            some ("P" ++ toString ((scenBestFitBlocks.filter fun b =>
              b.status = .allocated ∧ b.processName ≠ some "OS").length + 1)),
            80, sel.startAddress, sel.startAddress + 80, .allocated⟩ : MemoryBlock) ::
          (if (80 : ℤ) < sel.size then
            [(⟨(scenBestFitBlocks.erase sel ++
                [(⟨scenBestFitBlocks.length + 1,
                  some ("P" ++ toString ((scenBestFitBlocks.filter fun b =>
                    b.status = .allocated ∧ b.processName ≠ some "OS").length + 1)),
                  80, sel.startAddress, sel.startAddress + 80,
                  .allocated⟩ : MemoryBlock)]).length + 1, none,
              sel.size - 80, sel.startAddress + 80, sel.endAddress,
              .free⟩ : MemoryBlock)]
           else []))) ∧
    selectBlock .best 80 scenBestFitBlocks = some (MemoryBlock.mk 6 none 100 924 1024 .free) ∧
    allocateMemory .best 80 scenBestFitBlocks =
      some [MemoryBlock.mk 1 (some "OS") 128 0 128 .allocated,
            MemoryBlock.mk 2 none 50 128 178 .free,
            MemoryBlock.mk 3 (some "P1") 100 178 278 .allocated,
            MemoryBlock.mk 4 none 200 278 478 .free,
            MemoryBlock.mk 5 (some "P2") 446 478 924 .allocated,
            MemoryBlock.mk 7 (some "P3") 80 924 1004 .allocated,
            MemoryBlock.mk 7 none 20 1004 1024 .free] :=
  ⟨⟨by decide, by decide⟩,
    c5_best_fit scenBestFitBlocks 80 (by decide) (by decide),
    by decide, by decide⟩

/-! ## C4: waiting and turnaround bounds -/

/-- Every FCFS slice has nonnegative waiting time and turnaround at least the
burst time. -/
lemma fcfsGo_bounds (l : List Process) :
    ∀ t : ℤ, ∀ s ∈ fcfsGo l t, 0 ≤ s.waitingTime ∧ s.burstTime ≤ s.turnaroundTime := by
  induction l with
  | nil => intro t s hs; simp [fcfsGo] at hs
  | cons p rest ih =>
    intro t s hs
    simp only [fcfsGo, List.mem_cons] at hs
    rcases hs with h | h
    · subst h
      constructor
      · show (0 : ℤ) ≤ (if t < p.arrivalTime then p.arrivalTime else t) + p.burstTime -
          p.arrivalTime - p.burstTime
        split <;> omega
      · show p.burstTime ≤ (if t < p.arrivalTime then p.arrivalTime else t) + p.burstTime -
          p.arrivalTime
        split <;> omega
    · exact ih _ s h

/-- Every slice emitted by the shared SJF/Priority loop has nonnegative
waiting time and turnaround at least the burst time, provided bursts are
positive and every queued process has already arrived. -/
lemma npGo_bounds (key : Process → ℤ) :
    ∀ (fuel : ℕ) (pending ready : List Process) (t : ℤ),
      (∀ p ∈ pending, 1 ≤ p.burstTime) → (∀ p ∈ ready, 1 ≤ p.burstTime) →
      (∀ p ∈ ready, p.arrivalTime ≤ t) →
      ∀ out, npGo key fuel pending ready t = some out →
        ∀ s ∈ out, 0 ≤ s.waitingTime ∧ s.burstTime ≤ s.turnaroundTime := by
  intro fuel
  induction fuel with
  | zero => intro pending ready t _ _ _ out hout; simp [npGo] at hout
  | succ fuel ih =>
    intro pending ready t hpb hrb hra out hout
    rw [npGo] at hout
    split at hout
    · simp only [Option.some.injEq] at hout
      subst hout
      intro s hs
      simp at hs
    · rename_i hne
      revert hout
      cases hs : List.insertionSort (keyLE key)
          (ready ++ pending.takeWhile fun p => p.arrivalTime ≤ t) with
      | nil =>
        cases hrest : pending.dropWhile (fun p => p.arrivalTime ≤ t) with
        | nil =>
          intro hout
          simp only [Option.some.injEq] at hout
          subst hout
          intro s hsm
          simp at hsm
        | cons q qrest =>
          intro hout
          have hsub : ∀ p ∈ q :: qrest, 1 ≤ p.burstTime := by
            rw [← hrest]
            exact fun p hp => hpb p ((List.dropWhile_sublist _).subset hp)
          exact ih _ [] q.arrivalTime hsub (by simp) (by simp) out hout
      | cons proc readyRest =>
        intro hout
        rw [Option.map_eq_some'] at hout
        obtain ⟨out', hout', rfl⟩ := hout
        have hrqmem : ∀ p ∈ ready ++ pending.takeWhile (fun p => p.arrivalTime ≤ t),
            1 ≤ p.burstTime ∧ p.arrivalTime ≤ t := by
          intro p hp
          rcases List.mem_append.mp hp with h | h
          · exact ⟨hrb p h, hra p h⟩
          · exact ⟨hpb p ((List.takeWhile_sublist _).subset h),
              by simpa using List.mem_takeWhile_imp h⟩
        have hsortmem : ∀ p ∈ proc :: readyRest, 1 ≤ p.burstTime ∧ p.arrivalTime ≤ t := by
          intro p hp
          rw [← hs] at hp
          exact hrqmem p ((List.perm_insertionSort _ _).mem_iff.mp hp)
        have hproc := hsortmem proc (List.mem_cons_self _ _)
        intro s hsm
        rcases List.mem_cons.mp hsm with h | h
        · subst h
          constructor
          · show (0 : ℤ) ≤ t + proc.burstTime - proc.arrivalTime - proc.burstTime
            omega
          · show proc.burstTime ≤ t + proc.burstTime - proc.arrivalTime
            omega
        · have hrest : ∀ p ∈ pending.dropWhile (fun p => p.arrivalTime ≤ t), 1 ≤ p.burstTime :=
            fun p hp => hpb p ((List.dropWhile_sublist _).subset hp)
          have hready' : ∀ p ∈ readyRest, 1 ≤ p.burstTime :=
            fun p hp => (hsortmem p (List.mem_cons_of_mem _ hp)).1
          have harr' : ∀ p ∈ readyRest, p.arrivalTime ≤ t + proc.burstTime := by
            intro p hp
            have := (hsortmem p (List.mem_cons_of_mem _ hp)).2
            have := hproc.1
            omega
          exact ih _ readyRest (t + proc.burstTime) hrest hready' harr' out' hout' s h

/-- Per-process invariant of the round-robin loop at clock value `t`:
`remainingTime` stays within `[0, burstTime]`; once a process has partially
executed, the clock is at least its arrival plus the work done; and once
`remainingTime` hits 0 the completion data recorded at that instant satisfies
the timing identities. -/
def rrPInv (t : ℤ) (p : Process) : Prop :=
  0 ≤ p.remainingTime ∧ p.remainingTime ≤ p.burstTime ∧
  (0 < p.remainingTime → p.remainingTime < p.burstTime →
    p.arrivalTime + (p.burstTime - p.remainingTime) ≤ t) ∧
  (p.remainingTime = 0 →
    p.turnaroundTime = p.completionTime - p.arrivalTime ∧
    p.waitingTime = p.turnaroundTime - p.burstTime ∧
    p.arrivalTime + p.burstTime ≤ p.completionTime)

/-- The invariant is monotone in the clock. -/
lemma rrPInv_mono {t t' : ℤ} (h : t ≤ t') {p : Process} (hp : rrPInv t p) : rrPInv t' p := by
  obtain ⟨h1, h2, h3, h4⟩ := hp
  exact ⟨h1, h2, fun ha hb => le_trans (h3 ha hb) h, h4⟩

/-- One round-robin pass does not decrease the clock and preserves the
per-process invariant. -/
lemma rrVisit_inv (quantum : ℤ) (hq : 1 ≤ quantum) :
    ∀ (queue : List Process) (t : ℤ), (∀ p ∈ queue, rrPInv t p) →
      t ≤ (rrVisit quantum queue t).2.1 ∧
        ∀ p ∈ (rrVisit quantum queue t).1, rrPInv (rrVisit quantum queue t).2.1 p := by
  intro queue
  induction queue with
  | nil => intro t _; exact ⟨le_refl t, by simp [rrVisit]⟩
  | cons p rest ih =>
    intro t hinv
    have hp := hinv p (List.mem_cons_self _ _)
    have hrest : ∀ x ∈ rest, rrPInv t x := fun x hx => hinv x (List.mem_cons_of_mem _ hx)
    rw [rrVisit]
    split
    · rename_i hcond
      obtain ⟨hrem, harr⟩ := hcond
      obtain ⟨h1, h2, h3, h4⟩ := hp
      have hex1 : 1 ≤ min quantum p.remainingTime := by omega
      have hrest2 : ∀ x ∈ rest, rrPInv (t + min quantum p.remainingTime) x :=
        fun x hx => rrPInv_mono (by omega) (hrest x hx)
      have hih := ih (t + min quantum p.remainingTime) hrest2
      refine ⟨by show t ≤ (rrVisit quantum rest (t + min quantum p.remainingTime)).2.1; omega, ?_⟩
      intro x hx
      simp only [List.mem_cons] at hx
      rcases hx with rfl | hx
      · refine rrPInv_mono hih.1 ?_
        by_cases hz : p.remainingTime - min quantum p.remainingTime = 0
        · rw [if_pos hz]
          refine ⟨?_, ?_, ?_, fun _ => ⟨rfl, rfl, ?_⟩⟩
          · show (0 : ℤ) ≤ p.remainingTime - min quantum p.remainingTime
            omega
          · show p.remainingTime - min quantum p.remainingTime ≤ p.burstTime
            omega
          · intro ha _
            show p.arrivalTime +
              (p.burstTime - (p.remainingTime - min quantum p.remainingTime)) ≤
              t + min quantum p.remainingTime
            omega
          · show p.arrivalTime + p.burstTime ≤ t + min quantum p.remainingTime
            by_cases hfull : p.remainingTime = p.burstTime
            · omega
            · have := h3 hrem (by omega)
              omega
        · rw [if_neg hz]
          refine ⟨?_, ?_, ?_, fun h0 => absurd h0 hz⟩
          · show (0 : ℤ) ≤ p.remainingTime - min quantum p.remainingTime
            omega
          · show p.remainingTime - min quantum p.remainingTime ≤ p.burstTime
            omega
          · intro ha hb
            show p.arrivalTime +
              (p.burstTime - (p.remainingTime - min quantum p.remainingTime)) ≤
              t + min quantum p.remainingTime
            by_cases hfull : p.remainingTime = p.burstTime
            · omega
            · have := h3 hrem (by omega)
              omega
      · exact hih.2 x hx
    · have hih := ih t hrest
      refine ⟨hih.1, ?_⟩
      intro x hx
      simp only [List.mem_cons] at hx
      rcases hx with rfl | hx
      · exact rrPInv_mono hih.1 hp
      · exact hih.2 x hx

/-- When the round-robin loop exits, every process in the final queue has
remaining time 0 and carries completion data satisfying the timing
identities. -/
lemma rrLoop_final (quantum : ℤ) (hq : 1 ≤ quantum) :
    ∀ (fuel : ℕ) (queue : List Process) (t : ℤ) (acc out : List Slice) (fq : List Process),
      (∀ p ∈ queue, rrPInv t p) → rrLoop quantum fuel queue t acc = some (out, fq) →
      ∀ p ∈ fq, p.remainingTime = 0 ∧
        p.turnaroundTime = p.completionTime - p.arrivalTime ∧
        p.waitingTime = p.turnaroundTime - p.burstTime ∧
        p.arrivalTime + p.burstTime ≤ p.completionTime := by
  intro fuel
  induction fuel with
  | zero => intro queue t acc out fq _ hout; simp [rrLoop] at hout
  | succ fuel ih =>
    intro queue t acc out fq hinv hout
    rw [rrLoop] at hout
    split at hout
    · rename_i hany
      have hv := rrVisit_inv quantum hq queue t hinv
      exact ih _ _ _ out fq hv.2 hout
    · rename_i hany
      simp only [Option.some.injEq, Prod.mk.injEq] at hout
      obtain ⟨-, rfl⟩ := hout
      intro p hp
      have hinv' := hinv p hp
      have hnot : ¬ (0 < p.remainingTime) := by
        intro hpos
        exact hany (by
          rw [List.any_eq_true]
          exact ⟨p, hp, by simpa using hpos⟩)
      obtain ⟨h1, h2, h3, h4⟩ := hinv'
      have hz : p.remainingTime = 0 := by omega
      exact ⟨hz, h4 hz⟩

/-- The initial round-robin queue satisfies the invariant at clock 0. -/
lemma rrQueue_init (processList : List Process)
    (hv : ∀ p ∈ processList, 1 ≤ p.burstTime) :
    ∀ p ∈ (List.insertionSort (keyLE fun p => p.arrivalTime) processList).map
        (fun p => { p with remainingTime := p.burstTime }), rrPInv 0 p := by
  intro p hp
  rw [List.mem_map] at hp
  obtain ⟨q, hq, rfl⟩ := hp
  have hqb : 1 ≤ q.burstTime :=
    hv q ((List.perm_insertionSort _ _).mem_iff.mp hq)
  refine ⟨by simpa using by omega, by simp, ?_, ?_⟩
  · intro _ hlt
    simp at hlt
  · intro hzero
    simp at hzero
    omega

/-- C4: for each of the four schedulers on a valid input list
(arrivalTime ≥ 0, burstTime ≥ 1, quantum ≥ 1), every process record in the
returned result has `waitingTime ≥ 0` and `turnaroundTime ≥ burstTime` (for
the non-preemptive schedulers the per-process results are carried on the
returned slices; for round robin they are recorded on the final queue). -/
theorem c4_waiting_turnaround (processList : List Process) (quantum : ℤ) (fuel : ℕ)
    (hv : ∀ p ∈ processList, 0 ≤ p.arrivalTime ∧ 1 ≤ p.burstTime) (hq : 1 ≤ quantum) :
    (∀ s ∈ scheduleFCFS processList, 0 ≤ s.waitingTime ∧ s.burstTime ≤ s.turnaroundTime) ∧
    (∀ out, scheduleSJF fuel processList = some out →
      ∀ s ∈ out, 0 ≤ s.waitingTime ∧ s.burstTime ≤ s.turnaroundTime) ∧
    (∀ out, schedulePriority fuel processList = some out →
      ∀ s ∈ out, 0 ≤ s.waitingTime ∧ s.burstTime ≤ s.turnaroundTime) ∧
    (∀ out fq, scheduleRoundRobin fuel processList quantum = some (out, fq) →
      ∀ p ∈ fq, 0 ≤ p.waitingTime ∧ p.burstTime ≤ p.turnaroundTime) := by
  refine ⟨?_, ?_, ?_, ?_⟩
  · intro s hs
    exact fcfsGo_bounds _ 0 s hs
  · intro out hout s hs
    refine npGo_bounds _ fuel _ [] 0 ?_ (by simp) (by simp) out hout s hs
    intro p hp
    exact (hv p ((List.perm_insertionSort _ _).mem_iff.mp hp)).2
  · intro out hout s hs
    refine npGo_bounds _ fuel _ [] 0 ?_ (by simp) (by simp) out hout s hs
    intro p hp
    exact (hv p ((List.perm_insertionSort _ _).mem_iff.mp hp)).2
  · intro out fq hout p hp
    have hfin := rrLoop_final quantum hq fuel _ 0 [] out fq
      (rrQueue_init processList (fun x hx => (hv x hx).2)) hout p hp
    obtain ⟨hz, ht, hw, hc⟩ := hfin
    constructor <;> omega

/-- Witness for C4: the three scenario processes with quantum 2 and enough
fuel. -/
theorem c4_waiting_turnaround_witness :
    ((∀ p ∈ [scenP1, scenP2, scenP3], 0 ≤ p.arrivalTime ∧ 1 ≤ p.burstTime) ∧ (1 : ℤ) ≤ 2) ∧
    ((∀ s ∈ scheduleFCFS [scenP1, scenP2, scenP3],
        0 ≤ s.waitingTime ∧ s.burstTime ≤ s.turnaroundTime) ∧
     (∀ out, scheduleSJF 30 [scenP1, scenP2, scenP3] = some out →
        ∀ s ∈ out, 0 ≤ s.waitingTime ∧ s.burstTime ≤ s.turnaroundTime) ∧
     (∀ out, schedulePriority 30 [scenP1, scenP2, scenP3] = some out →
        ∀ s ∈ out, 0 ≤ s.waitingTime ∧ s.burstTime ≤ s.turnaroundTime) ∧
     (∀ out fq, scheduleRoundRobin 30 [scenP1, scenP2, scenP3] 2 = some (out, fq) →
        ∀ p ∈ fq, 0 ≤ p.waitingTime ∧ p.burstTime ≤ p.turnaroundTime)) :=
  ⟨⟨by decide, by decide⟩,
    c4_waiting_turnaround [scenP1, scenP2, scenP3] 2 30 (by decide) (by decide)⟩

/-! ## C10: chronological consistency of the traces -/

/-- A trace is chained from clock `t`: each slice starts no earlier than the
current clock and than its process's arrival, has nonnegative duration, and
the next slice is chained from its end. -/
def ChainedFrom : ℤ → List Slice → Prop
  | _, [] => True
  | t, s :: rest =>
    t ≤ s.startTime ∧ s.arrivalTime ≤ s.startTime ∧ 0 ≤ s.duration ∧
      ChainedFrom (s.startTime + s.duration) rest

/-- The clock value after a chained trace. -/
def chainEnd : ℤ → List Slice → ℤ
  | t, [] => t
  | _, s :: rest => chainEnd (s.startTime + s.duration) rest

/-- The chronological-consistency property of C10: slices in non-decreasing
start order, no two slices overlapping in time, and no slice starting before
its process's arrival. -/
def ChronoConsistent (trace : List Slice) : Prop :=
  trace.Chain' (fun a b => a.startTime ≤ b.startTime) ∧
  trace.Chain' (fun a b => a.startTime + a.duration ≤ b.startTime) ∧
  ∀ s ∈ trace, s.arrivalTime ≤ s.startTime

/-- Chaining is antitone in the starting clock. -/
lemma ChainedFrom_mono : ∀ {t t' : ℤ} {l : List Slice}, t ≤ t' →
    ChainedFrom t' l → ChainedFrom t l := by
  intro t t' l h hl
  cases l with
  | nil => trivial
  | cons s rest =>
    obtain ⟨h1, h2, h3, h4⟩ := hl
    exact ⟨le_trans h h1, h2, h3, h4⟩

/-- A chained trace is chronologically consistent. -/
lemma ChainedFrom.chrono : ∀ {t : ℤ} {l : List Slice}, ChainedFrom t l →
    ChronoConsistent l := by
  intro t l
  induction l generalizing t with
  | nil => exact fun _ => ⟨List.chain'_nil, List.chain'_nil, by simp⟩
  | cons s rest ih =>
    intro h
    obtain ⟨h1, h2, h3, h4⟩ := h
    have hrest := ih h4
    refine ⟨?_, ?_, ?_⟩
    · cases rest with
      | nil => simp
      | cons r2 rr =>
        rw [List.chain'_cons]
        refine ⟨?_, hrest.1⟩
        have := h4.1
        have := h4.2.2.1
        omega
    · cases rest with
      | nil => simp
      | cons r2 rr =>
        rw [List.chain'_cons]
        exact ⟨h4.1, hrest.2.1⟩
    · intro x hx
      rcases List.mem_cons.mp hx with rfl | hx
      · exact h2
      · exact hrest.2.2 x hx

/-- The chain end of an appended trace. -/
lemma chainEnd_append : ∀ (l₁ l₂ : List Slice) (t : ℤ),
    chainEnd t (l₁ ++ l₂) = chainEnd (chainEnd t l₁) l₂ := by
  intro l₁
  induction l₁ with
  | nil => intro l₂ t; rfl
  | cons s rest ih =>
    intro l₂ t
    simp only [List.cons_append, chainEnd]
    exact ih l₂ _

/-- The chain end does not depend on the starting clock for non-empty
traces. -/
lemma chainEnd_irrel (s : Slice) (l : List Slice) (t t' : ℤ) :
    chainEnd t (s :: l) = chainEnd t' (s :: l) := rfl

/-- Chained traces compose. -/
lemma ChainedFrom_append : ∀ (l₁ l₂ : List Slice) (t : ℤ),
    ChainedFrom t l₁ → ChainedFrom (chainEnd t l₁) l₂ → ChainedFrom t (l₁ ++ l₂) := by
  intro l₁
  induction l₁ with
  | nil => intro l₂ t _ h; exact h
  | cons s rest ih =>
    intro l₂ t h1 h2
    obtain ⟨ha, hb, hc, hd⟩ := h1
    exact ⟨ha, hb, hc, ih l₂ _ hd h2⟩

/-- The FCFS trace is chained from the starting clock. -/
lemma fcfsGo_chained (l : List Process) (hb : ∀ p ∈ l, 1 ≤ p.burstTime) :
    ∀ t : ℤ, ChainedFrom t (fcfsGo l t) := by
  induction l with
  | nil => intro t; trivial
  | cons p rest ih =>
    intro t
    have hp := hb p (List.mem_cons_self _ _)
    refine ⟨?_, ?_, ?_, ?_⟩
    · show t ≤ if t < p.arrivalTime then p.arrivalTime else t
      split <;> omega
    · show p.arrivalTime ≤ if t < p.arrivalTime then p.arrivalTime else t
      split <;> omega
    · show (0 : ℤ) ≤ p.burstTime
      omega
    · exact ih (fun x hx => hb x (List.mem_cons_of_mem _ hx)) _

/-- The head of a `dropWhile` falsifies the predicate. -/
lemma dropWhile_head_not {α : Type} (p : α → Bool) :
    ∀ (l : List α) (q : α) (qrest : List α), l.dropWhile p = q :: qrest → ¬ p q = true := by
  intro l
  induction l with
  | nil => intro q qrest h; simp [List.dropWhile] at h
  | cons a rest ih =>
    intro q qrest h
    rw [List.dropWhile] at h
    revert h
    cases hpa : p a with
    | true => exact fun h => ih q qrest h
    | false =>
      intro h
      simp only [List.cons.injEq] at h
      rw [← h.1]
      simp [hpa]

/-- The SJF/Priority trace is chained from the starting clock. -/
lemma npGo_chained (key : Process → ℤ) :
    ∀ (fuel : ℕ) (pending ready : List Process) (t : ℤ),
      (∀ p ∈ pending, 1 ≤ p.burstTime) → (∀ p ∈ ready, 1 ≤ p.burstTime) →
      (∀ p ∈ ready, p.arrivalTime ≤ t) →
      ∀ out, npGo key fuel pending ready t = some out → ChainedFrom t out := by
  intro fuel
  induction fuel with
  | zero => intro pending ready t _ _ _ out hout; simp [npGo] at hout
  | succ fuel ih =>
    intro pending ready t hpb hrb hra out hout
    rw [npGo] at hout
    split at hout
    · simp only [Option.some.injEq] at hout
      subst hout
      trivial
    · revert hout
      cases hs : List.insertionSort (keyLE key)
          (ready ++ pending.takeWhile fun p => p.arrivalTime ≤ t) with
      | nil =>
        cases hrest : pending.dropWhile (fun p => p.arrivalTime ≤ t) with
        | nil =>
          intro hout
          simp only [Option.some.injEq] at hout
          subst hout
          trivial
        | cons q qrest =>
          intro hout
          have hsub : ∀ p ∈ q :: qrest, 1 ≤ p.burstTime := by
            rw [← hrest]
            exact fun p hp => hpb p ((List.dropWhile_sublist _).subset hp)
          have hqt : ¬ (q.arrivalTime ≤ t) := by
            have := dropWhile_head_not (fun p => decide (p.arrivalTime ≤ t)) pending q qrest hrest
            simpa using this
          exact ChainedFrom_mono (by omega)
            (ih _ [] q.arrivalTime hsub (by simp) (by simp) out hout)
      | cons proc readyRest =>
        intro hout
        rw [Option.map_eq_some'] at hout
        obtain ⟨out', hout', rfl⟩ := hout
        have hrqmem : ∀ p ∈ ready ++ pending.takeWhile (fun p => p.arrivalTime ≤ t),
            1 ≤ p.burstTime ∧ p.arrivalTime ≤ t := by
          intro p hp
          rcases List.mem_append.mp hp with h | h
          · exact ⟨hrb p h, hra p h⟩
          · exact ⟨hpb p ((List.takeWhile_sublist _).subset h),
              by simpa using List.mem_takeWhile_imp h⟩
        have hsortmem : ∀ p ∈ proc :: readyRest, 1 ≤ p.burstTime ∧ p.arrivalTime ≤ t := by
          intro p hp
          rw [← hs] at hp
          exact hrqmem p ((List.perm_insertionSort _ _).mem_iff.mp hp)
        have hproc := hsortmem proc (List.mem_cons_self _ _)
        have hrest : ∀ p ∈ pending.dropWhile (fun p => p.arrivalTime ≤ t), 1 ≤ p.burstTime :=
          fun p hp => hpb p ((List.dropWhile_sublist _).subset hp)
        have hready' : ∀ p ∈ readyRest, 1 ≤ p.burstTime :=
          fun p hp => (hsortmem p (List.mem_cons_of_mem _ hp)).1
        have harr' : ∀ p ∈ readyRest, p.arrivalTime ≤ t + proc.burstTime := by
          intro p hp
          have h1 := (hsortmem p (List.mem_cons_of_mem _ hp)).2
          have h2 := hproc.1
          omega
        refine ⟨le_refl t, hproc.2, by show (0 : ℤ) ≤ proc.burstTime; omega, ?_⟩
        exact ih _ readyRest (t + proc.burstTime) hrest hready' harr' out' hout'

/-- One round-robin pass emits a trace chained from the pass's starting clock
and ending exactly at the pass's final clock. -/
lemma rrVisit_chained (quantum : ℤ) (hq : 1 ≤ quantum) :
    ∀ (queue : List Process) (t : ℤ),
      ChainedFrom t (rrVisit quantum queue t).2.2 ∧
        chainEnd t (rrVisit quantum queue t).2.2 = (rrVisit quantum queue t).2.1 := by
  intro queue
  induction queue with
  | nil => intro t; exact ⟨trivial, rfl⟩
  | cons p rest ih =>
    intro t
    rw [rrVisit]
    split
    · rename_i hcond
      obtain ⟨hrem, harr⟩ := hcond
      have hih := ih (t + min quantum p.remainingTime)
      refine ⟨⟨le_refl t, harr, by show (0 : ℤ) ≤ min quantum p.remainingTime; omega, hih.1⟩, ?_⟩
      show chainEnd (t + min quantum p.remainingTime) _ = _
      exact hih.2
    · exact ih t

/-- The slices accumulated by the round-robin loop stay chained from clock 0
when it returns. -/
lemma rrLoop_chained (quantum : ℤ) (hq : 1 ≤ quantum) :
    ∀ (fuel : ℕ) (queue : List Process) (t : ℤ) (acc out : List Slice) (fq : List Process),
      ChainedFrom 0 acc → chainEnd 0 acc ≤ t →
      rrLoop quantum fuel queue t acc = some (out, fq) → ChainedFrom 0 out := by
  intro fuel
  induction fuel with
  | zero => intro queue t acc out fq _ _ hout; simp [rrLoop] at hout
  | succ fuel ih =>
    intro queue t acc out fq hacc hend hout
    rw [rrLoop] at hout
    split at hout
    · have hv := rrVisit_chained quantum hq queue t
      have hacc' : ChainedFrom 0 (acc ++ (rrVisit quantum queue t).2.2) :=
        ChainedFrom_append _ _ _ hacc
          (ChainedFrom_mono hend hv.1)
      have hend' : chainEnd 0 (acc ++ (rrVisit quantum queue t).2.2) ≤
          (rrVisit quantum queue t).2.1 := by
        rw [chainEnd_append]
        cases hsl : (rrVisit quantum queue t).2.2 with
        | nil =>
          have := hv.2
          rw [hsl] at this
          show chainEnd 0 acc ≤ _
          rw [← this]
          exact hend
        | cons s sl =>
          have := hv.2
          rw [hsl] at this
          rw [chainEnd_irrel s sl _ t, this]
      exact ih _ _ _ out fq hacc' hend' hout
    · simp only [Option.some.injEq, Prod.mk.injEq] at hout
      obtain ⟨rfl, -⟩ := hout
      exact hacc

/-- C10: every execution trace returned by any of the four schedulers on a
valid input (arrivalTime ≥ 0, burstTime ≥ 1, quantum ≥ 1) is chronologically
consistent: slices appear in non-decreasing start order, no slice starts
before the previous one ended, and no slice starts before its process's
arrival. -/
theorem c10_traces_chronological (processList : List Process) (quantum : ℤ) (fuel : ℕ)
    (hv : ∀ p ∈ processList, 0 ≤ p.arrivalTime ∧ 1 ≤ p.burstTime) (hq : 1 ≤ quantum) :
    ChronoConsistent (scheduleFCFS processList) ∧
    (∀ out, scheduleSJF fuel processList = some out → ChronoConsistent out) ∧
    (∀ out, schedulePriority fuel processList = some out → ChronoConsistent out) ∧
    (∀ out fq, scheduleRoundRobin fuel processList quantum = some (out, fq) →
      ChronoConsistent out) := by
  have hsorted : ∀ p ∈ List.insertionSort (keyLE fun p => p.arrivalTime) processList,
      1 ≤ p.burstTime :=
    fun p hp => (hv p ((List.perm_insertionSort _ _).mem_iff.mp hp)).2
  refine ⟨?_, ?_, ?_, ?_⟩
  · exact (fcfsGo_chained _ hsorted 0).chrono
  · intro out hout
    exact (npGo_chained _ fuel _ [] 0 hsorted (by simp) (by simp) out hout).chrono
  · intro out hout
    exact (npGo_chained _ fuel _ [] 0 hsorted (by simp) (by simp) out hout).chrono
  · intro out fq hout
    exact (rrLoop_chained quantum hq fuel _ 0 [] out fq trivial (le_refl 0) hout).chrono

/-- Witness for C10: the three scenario processes with quantum 2 and enough
fuel. -/
theorem c10_traces_chronological_witness :
    ((∀ p ∈ [scenP1, scenP2, scenP3], 0 ≤ p.arrivalTime ∧ 1 ≤ p.burstTime) ∧ (1 : ℤ) ≤ 2) ∧
    (ChronoConsistent (scheduleFCFS [scenP1, scenP2, scenP3]) ∧
     (∀ out, scheduleSJF 30 [scenP1, scenP2, scenP3] = some out → ChronoConsistent out) ∧
     (∀ out, schedulePriority 30 [scenP1, scenP2, scenP3] = some out → ChronoConsistent out) ∧
     (∀ out fq, scheduleRoundRobin 30 [scenP1, scenP2, scenP3] 2 = some (out, fq) →
        ChronoConsistent out)) :=
  ⟨⟨by decide, by decide⟩,
    c10_traces_chronological [scenP1, scenP2, scenP3] 2 30 (by decide) (by decide)⟩

/-! ## C2: memory layout invariants -/

/-- The blocks exactly tile the address interval from `a` to `z`, in order,
with positive sizes and `endAddress = startAddress + size`. -/
def Seg : ℤ → ℤ → List MemoryBlock → Prop
  | a, z, [] => a = z
  | a, z, b :: rest =>
    b.startAddress = a ∧ b.endAddress = a + b.size ∧ 0 < b.size ∧ Seg (a + b.size) z rest

/-- A tiling runs left to right. -/
lemma seg_le : ∀ (l : List MemoryBlock) (a z : ℤ), Seg a z l → a ≤ z := by
  intro l
  induction l with
  | nil => intro a z h; exact le_of_eq h
  | cons b rest ih =>
    intro a z h
    obtain ⟨h1, h2, h3, h4⟩ := h
    have := ih _ _ h4
    omega

/-- The sizes of a tiling sum to the interval length. -/
lemma seg_sum : ∀ (l : List MemoryBlock) (a z : ℤ), Seg a z l → a + sumSizes l = z := by
  intro l
  induction l with
  | nil => intro a z h; have hz : a = z := h; simp [sumSizes, hz]
  | cons b rest ih =>
    intro a z h
    obtain ⟨h1, h2, h3, h4⟩ := h
    have := ih _ _ h4
    simp only [sumSizes, List.map_cons, List.sum_cons] at *
    omega

/-- Bounds and well-formedness of every block of a tiling. -/
lemma seg_mem : ∀ (l : List MemoryBlock) (a z : ℤ), Seg a z l → ∀ b ∈ l,
    a ≤ b.startAddress ∧ b.endAddress ≤ z ∧
      b.endAddress = b.startAddress + b.size ∧ 0 < b.size := by
  intro l
  induction l with
  | nil => intro a z _ b hb; simp at hb
  | cons q rest ih =>
    intro a z h b hb
    obtain ⟨h1, h2, h3, h4⟩ := h
    have hz := seg_le rest _ _ h4
    rcases List.mem_cons.mp hb with rfl | hb
    · refine ⟨by omega, by omega, by omega, h3⟩
    · have := ih _ _ h4 b hb
      refine ⟨by omega, by omega, this.2.2.1, this.2.2.2⟩

/-- The blocks of a tiling have strictly increasing start addresses. -/
lemma seg_pairwise_lt : ∀ (l : List MemoryBlock) (a z : ℤ), Seg a z l →
    l.Pairwise (fun x y => x.startAddress < y.startAddress) := by
  intro l
  induction l with
  | nil => intro a z _; exact List.Pairwise.nil
  | cons b rest ih =>
    intro a z h
    obtain ⟨h1, h2, h3, h4⟩ := h
    refine List.Pairwise.cons ?_ (ih _ _ h4)
    intro y hy
    have := (seg_mem rest _ _ h4 y hy).1
    omega

/-- The blocks of a tiling do not overlap (in list order). -/
lemma seg_nonoverlap : ∀ (l : List MemoryBlock) (a z : ℤ), Seg a z l →
    l.Pairwise (fun x y => x.endAddress ≤ y.startAddress) := by
  intro l
  induction l with
  | nil => intro a z _; exact List.Pairwise.nil
  | cons b rest ih =>
    intro a z h
    obtain ⟨h1, h2, h3, h4⟩ := h
    refine List.Pairwise.cons ?_ (ih _ _ h4)
    intro y hy
    have := (seg_mem rest _ _ h4 y hy).1
    omega

/-- Splitting a tiling of an appended list. -/
lemma seg_append : ∀ (xs ys : List MemoryBlock) (a z : ℤ),
    Seg a z (xs ++ ys) ↔ ∃ m, Seg a m xs ∧ Seg m z ys := by
  intro xs
  induction xs with
  | nil =>
    intro ys a z
    constructor
    · intro h; exact ⟨a, rfl, h⟩
    · intro ⟨m, hm, h⟩
      have : a = m := hm
      rw [this]
      exact h
  | cons b xs ih =>
    intro ys a z
    constructor
    · intro h
      obtain ⟨h1, h2, h3, h4⟩ := h
      obtain ⟨m, hm1, hm2⟩ := (ih ys _ z).mp h4
      exact ⟨m, ⟨h1, h2, h3, hm1⟩, hm2⟩
    · intro ⟨m, hm, h⟩
      obtain ⟨h1, h2, h3, h4⟩ := hm
      exact ⟨h1, h2, h3, (ih ys _ z).mpr ⟨m, h4, h⟩⟩

/-- A permutation between two lists that are strictly sorted by start address
is an equality. -/
lemma strictSorted_perm_eq (l₁ l₂ : List MemoryBlock) (hp : l₁.Perm l₂)
    (h1 : l₁.Pairwise fun x y => x.startAddress < y.startAddress)
    (h2 : l₂.Pairwise fun x y => x.startAddress < y.startAddress) : l₁ = l₂ := by
  haveI : IsAntisymm MemoryBlock
      (fun x y => x.startAddress < y.startAddress ∨ x = y) := by
    refine ⟨?_⟩
    intro a b hab hba
    rcases hab with h | h
    · rcases hba with h' | h'
      · omega
      · exact h'.symm
    · exact h
  exact @List.eq_of_perm_of_sorted MemoryBlock
    (fun x y => x.startAddress < y.startAddress ∨ x = y) _ _ _ hp
    (h1.imp Or.inl) (h2.imp Or.inl)

/-- Sorting by start address a list with pairwise distinct start addresses
yields a strictly sorted list. -/
lemma sort_pairwise_lt (l : List MemoryBlock)
    (hnd : l.Pairwise fun x y => x.startAddress ≠ y.startAddress) :
    (List.insertionSort (bKeyLE fun b => b.startAddress) l).Pairwise
      (fun x y => x.startAddress < y.startAddress) := by
  have hs := List.sorted_insertionSort (bKeyLE fun b => b.startAddress) l
  have hnd' : (List.insertionSort (bKeyLE fun b => b.startAddress) l).Pairwise
      (fun x y => x.startAddress ≠ y.startAddress) :=
    ((List.perm_insertionSort _ l).pairwise_iff (fun h => h.symm)).mpr hnd
  refine (List.Pairwise.and hs hnd').imp ?_
  intro a b hab
  have h1 : a.startAddress ≤ b.startAddress := hab.1
  have h2 : a.startAddress ≠ b.startAddress := hab.2
  omega

/-- Distinct start addresses identify blocks within a strictly sorted list. -/
lemma pairwise_lt_inj : ∀ (l : List MemoryBlock),
    l.Pairwise (fun x y => x.startAddress < y.startAddress) →
    ∀ x ∈ l, ∀ y ∈ l, x.startAddress = y.startAddress → x = y := by
  intro l
  induction l with
  | nil => intro _ x hx; simp at hx
  | cons a rest ih =>
    intro hp x hx y hy hxy
    have hhead := (List.pairwise_cons.mp hp).1
    rcases List.mem_cons.mp hx with hx' | hx' <;> rcases List.mem_cons.mp hy with hy' | hy'
    · rw [hx', hy']
    · rw [hx'] at hxy
      have := hhead y hy'
      omega
    · rw [hy'] at hxy
      have := hhead x hx'
      omega
    · exact ih (List.pairwise_cons.mp hp).2 x hx' y hy' hxy

/-- A `P`-prefixed process name is never the kernel owner name. -/
lemma pName_ne_os (s : String) : ("P" ++ s) ≠ "OS" := by
  intro h
  have hd := congrArg String.data h
  rw [String.data_append] at hd
  have : 'P' :: s.data = ['O', 'S'] := hd
  have := List.head_eq_of_cons_eq this
  exact absurd this (by decide)

/-- The unique block owned by `'OS'` is the reserved kernel block at 0–128. -/
def osOk (blocks : List MemoryBlock) : Prop :=
  ∃ i : ℕ, blocks.filter (fun b => b.processName = some "OS") =
    [⟨i, some "OS", 128, 0, 128, .allocated⟩]

/-- The reachable-state invariant of the memory engine: the blocks tile
0–1024 and the reserved kernel block is intact. -/
def MemInv (blocks : List MemoryBlock) : Prop :=
  Seg 0 1024 blocks ∧ osOk blocks

/-- Validity of one engine call as the spec demands (positive request
sizes). -/
def validOp : MemOp → Bool
  | .alloc _ processSize => 0 < processSize
  | _ => true

/-- Any selected block is a free member of the list that fits the request. -/
lemma selectBlock_mem (algorithm : AllocAlg) (processSize : ℤ) (blocks : List MemoryBlock)
    (sel : MemoryBlock) (h : selectBlock algorithm processSize blocks = some sel) :
    sel ∈ blocks ∧ sel.status = .free ∧ processSize ≤ sel.size := by
  cases algorithm with
  | first =>
    rw [selectBlock] at h
    have hmem := List.mem_of_find?_eq_some h
    have hp := List.find?_some h
    have := List.mem_filter.mp hmem
    exact ⟨this.1, by simpa using this.2, by simpa using hp⟩
  | best =>
    rw [selectBlock] at h
    have hmem := mem_of_head?_insertionSort _ _ sel h
    have h1 := List.mem_filter.mp hmem
    have h2 := List.mem_filter.mp h1.1
    exact ⟨h2.1, by simpa using h2.2, by simpa using h1.2⟩
  | worst =>
    rw [selectBlock] at h
    have hmem := mem_of_head?_insertionSort _ _ sel h
    have h1 := List.mem_filter.mp hmem
    have h2 := List.mem_filter.mp h1.1
    exact ⟨h2.1, by simpa using h2.2, by simpa using h1.2⟩

/-- Repacking blocks of positive sizes produces a tiling. -/
lemma repack_seg : ∀ (l : List MemoryBlock) (a : ℤ) (i : ℕ),
    (∀ b ∈ l, 0 < b.size) → Seg a (a + sumSizes l) (repackBlocks l a i).1 := by
  intro l
  induction l with
  | nil => intro a i _; show a = a + sumSizes []; simp [sumSizes]
  | cons b rest ih =>
    intro a i hl
    refine ⟨rfl, rfl, hl b (List.mem_cons_self _ _), ?_⟩
    have := ih (a + b.size) (i + 1) (fun x hx => hl x (List.mem_cons_of_mem _ hx))
    have hsum : a + sumSizes (b :: rest) = (a + b.size) + sumSizes rest := by
      simp only [sumSizes, List.map_cons, List.sum_cons]
      ring
    rw [hsum]
    exact this

/-- Repacking preserves the absence of `'OS'`-owned blocks. -/
lemma repackBlocks_no_os : ∀ (l : List MemoryBlock),
    (∀ b ∈ l, ¬ b.processName = some "OS") →
    ∀ (a : ℤ) (i : ℕ), ∀ b ∈ (repackBlocks l a i).1, ¬ b.processName = some "OS" := by
  intro l
  induction l with
  | nil => intro _ a i b hb; simp [repackBlocks] at hb
  | cons q rest ih =>
    intro hl a i b hb
    simp only [repackBlocks, List.mem_cons] at hb
    rcases hb with h | h
    · rw [h]
      exact hl q (List.mem_cons_self _ _)
    · exact ih (fun x hx => hl x (List.mem_cons_of_mem _ hx)) (a + q.size) (i + 1) b h

/-- A filtered sum is at most the full sum when sizes are nonnegative. -/
lemma sumSizes_filter_le (p : MemoryBlock → Bool) :
    ∀ (l : List MemoryBlock), (∀ b ∈ l, 0 ≤ b.size) →
      sumSizes (l.filter p) ≤ sumSizes l := by
  intro l
  induction l with
  | nil => intro _; simp [sumSizes]
  | cons b rest ih =>
    intro hl
    have hb := hl b (List.mem_cons_self _ _)
    have := ih (fun x hx => hl x (List.mem_cons_of_mem _ hx))
    rw [List.filter_cons]
    split
    · simp only [sumSizes, List.map_cons, List.sum_cons] at *
      omega
    · simp only [sumSizes, List.map_cons, List.sum_cons] at *
      omega

/-- Replacing the selected block by the new pieces (in the re-sorted order the
allocator produces) preserves the memory invariant.  `xs` and `ys` are the
blocks before and after the selected block `sel` in the tiling, `nb` is the
new allocated block and `rem` the conditional free remainder. -/
lemma replace_inv (xs ys : List MemoryBlock) (sel nb rem : MemoryBlock) (sz m : ℤ)
    (hxs : Seg 0 m xs) (hys : Seg (m + sel.size) 1024 ys)
    (hszpos : 0 < sz) (hszle : sz ≤ sel.size)
    (hnb1 : nb.startAddress = m) (hnb2 : nb.endAddress = m + sz) (hnb3 : nb.size = sz)
    (hnbn : ¬ nb.processName = some "OS")
    (hr1 : rem.startAddress = m + sz) (hr2 : rem.endAddress = m + sel.size)
    (hr3 : rem.size = sel.size - sz) (hrn : rem.processName = none)
    (hosxy : ∃ i : ℕ,
      xs.filter (fun b => b.processName = some "OS") ++
        ys.filter (fun b => b.processName = some "OS") =
        [⟨i, some "OS", 128, 0, 128, .allocated⟩]) :
    MemInv (List.insertionSort (bKeyLE fun b => b.startAddress)
      ((xs ++ ys) ++ nb :: (if sz < sel.size then [rem] else []))) := by
  have hpieces : Seg m (m + sel.size) (nb :: (if sz < sel.size then [rem] else [])) := by
    refine ⟨hnb1, by omega, by omega, ?_⟩
    rw [hnb3]
    by_cases hc : sz < sel.size
    · rw [if_pos hc]
      refine ⟨hr1, by omega, by omega, ?_⟩
      show (m + sz) + rem.size = m + sel.size
      omega
    · rw [if_neg hc]
      show m + sz = m + sel.size
      omega
  have hsegT : Seg 0 1024 (xs ++ ((nb :: (if sz < sel.size then [rem] else [])) ++ ys)) := by
    rw [seg_append]
    refine ⟨m, hxs, ?_⟩
    rw [seg_append]
    exact ⟨m + sel.size, hpieces, hys⟩
  have hperm : List.Perm ((xs ++ ys) ++ nb :: (if sz < sel.size then [rem] else []))
      (xs ++ ((nb :: (if sz < sel.size then [rem] else [])) ++ ys)) := by
    rw [List.append_assoc]
    exact List.Perm.append_left xs List.perm_append_comm
  have hTlt := seg_pairwise_lt _ 0 1024 hsegT
  have hndW : ((xs ++ ys) ++ nb :: (if sz < sel.size then [rem] else [])).Pairwise
      (fun x y => x.startAddress ≠ y.startAddress) :=
    (hperm.pairwise_iff (fun hxy => hxy.symm)).mpr (hTlt.imp fun hab => by omega)
  have hsort : List.insertionSort (bKeyLE fun b => b.startAddress)
      ((xs ++ ys) ++ nb :: (if sz < sel.size then [rem] else [])) =
      xs ++ ((nb :: (if sz < sel.size then [rem] else [])) ++ ys) :=
    strictSorted_perm_eq _ _ ((List.perm_insertionSort _ _).trans hperm)
      (sort_pairwise_lt _ hndW) hTlt
  rw [hsort]
  refine ⟨hsegT, ?_⟩
  obtain ⟨i, hxy⟩ := hosxy
  refine ⟨i, ?_⟩
  have hmid : (nb :: (if sz < sel.size then [rem] else [])).filter
      (fun b => b.processName = some "OS") = [] := by
    rw [List.filter_cons, if_neg (by simpa using hnbn)]
    by_cases hc : sz < sel.size
    · rw [if_pos hc]
      simp [hrn]
    · rw [if_neg hc]
      rfl
  rw [List.filter_append, List.filter_append, hmid, List.nil_append, hxy]

/-- A successful allocation with a positive request preserves the memory
invariant. -/
lemma alloc_preserves (algorithm : AllocAlg) (processSize : ℤ) (hsz : 0 < processSize)
    (blocks bs' : List MemoryBlock) (hinv : MemInv blocks)
    (h : allocateMemory algorithm processSize blocks = some bs') : MemInv bs' := by
  obtain ⟨hseg, hos⟩ := hinv
  rw [allocateMemory] at h
  cases hsel : selectBlock algorithm processSize blocks with
  | none => rw [hsel] at h; exact absurd h (by simp)
  | some sel =>
    rw [hsel] at h
    simp only [Option.some.injEq] at h
    obtain ⟨hmem, hfree, hsize⟩ := selectBlock_mem algorithm processSize blocks sel hsel
    have hlt := seg_pairwise_lt blocks 0 1024 hseg
    have hselname : ¬ sel.processName = some "OS" := by
      intro hn
      obtain ⟨i, hosf⟩ := hos
      have : sel ∈ blocks.filter (fun b => b.processName = some "OS") :=
        List.mem_filter.mpr ⟨hmem, by simp [hn]⟩
      rw [hosf] at this
      simp only [List.mem_singleton] at this
      rw [this] at hfree
      exact absurd hfree (by simp)
    obtain ⟨xs, ys, hsplit⟩ := List.append_of_mem hmem
    have hnotxs : sel ∉ xs := by
      intro hx
      rw [hsplit] at hlt
      have := (List.pairwise_append.mp hlt).2.2 sel hx sel (List.mem_cons_self _ _)
      omega
    have herase : blocks.erase sel = xs ++ ys := by
      rw [hsplit, List.erase_append_right _ hnotxs, List.erase_cons_head]
    have hos' : ∃ i : ℕ,
        xs.filter (fun b => b.processName = some "OS") ++
          ys.filter (fun b => b.processName = some "OS") =
          [⟨i, some "OS", 128, 0, 128, .allocated⟩] := by
      obtain ⟨i, hosf⟩ := hos
      rw [hsplit, List.filter_append, List.filter_cons, if_neg (by simpa using hselname)]
        at hosf
      exact ⟨i, hosf⟩
    rw [hsplit, seg_append] at hseg
    obtain ⟨m, hxs, hselseg⟩ := hseg
    obtain ⟨hselstart, hselend, hselpos, hys⟩ := hselseg
    rw [← h, ite_append_shape, herase]
    refine replace_inv xs ys sel _ _ processSize m hxs hys hsz hsize
      ?_ ?_ rfl ?_ ?_ ?_ rfl rfl hos'
    · exact hselstart
    · show sel.startAddress + processSize = m + processSize
      omega
    · intro hcon
      exact pName_ne_os _ (Option.some.inj hcon)
    · show sel.startAddress + processSize = m + processSize
      omega
    · exact hselend

/-- Deallocation (from any invariant state) rebuilds the two-block layout and
preserves the memory invariant. -/
lemma dealloc_preserves (blocks : List MemoryBlock) (hinv : MemInv blocks) :
    MemInv (deallocateMemory blocks) := by
  obtain ⟨hseg, ⟨i, hosf⟩⟩ := hinv
  rw [deallocateMemory, hosf]
  constructor
  · refine ⟨rfl, by norm_num, by norm_num, ?_⟩
    refine ⟨by norm_num, by norm_num, by norm_num, ?_⟩
    show (0 : ℤ) + 128 + 896 = 1024
    norm_num
  · refine ⟨i, ?_⟩
    rw [List.filter_append, List.filter_cons, if_pos (by simp),
      List.filter_cons, if_neg (by simp)]
    rfl

/-- Compaction (from any invariant state) preserves the memory invariant. -/
lemma compact_preserves (blocks : List MemoryBlock) (hinv : MemInv blocks) :
    MemInv (compactMemory blocks) := by
  obtain ⟨hseg, ⟨i, hosf⟩⟩ := hinv
  have hlt := seg_pairwise_lt blocks 0 1024 hseg
  cases blocks with
  | nil =>
    have : (0 : ℤ) = 1024 := hseg
    omega
  | cons b0 rest =>
    have hos_mem : (⟨i, some "OS", 128, 0, 128, .allocated⟩ : MemoryBlock) ∈ b0 :: rest := by
      have hm : (⟨i, some "OS", 128, 0, 128, .allocated⟩ : MemoryBlock) ∈
          (b0 :: rest).filter (fun b => b.processName = some "OS") := by
        rw [hosf]
        exact List.mem_singleton.mpr rfl
      exact (List.mem_filter.mp hm).1
    have hb0 : b0 = ⟨i, some "OS", 128, 0, 128, .allocated⟩ := by
      refine pairwise_lt_inj _ hlt b0 (List.mem_cons_self _ _) _ hos_mem ?_
      have h0 := hseg.1
      rw [h0]
    subst hb0
    -- rest carries no OS-owned block
    have hrestos : ∀ b ∈ rest, ¬ b.processName = some "OS" := by
      have h1 : List.filter (fun b => b.processName = some "OS") rest = [] := by
        rw [List.filter_cons, if_pos (by simp)] at hosf
        simpa using hosf
      intro b hb hn
      have : b ∈ List.filter (fun b => b.processName = some "OS") rest :=
        List.mem_filter.mpr ⟨hb, by simp [hn]⟩
      rw [h1] at this
      simp at this
    -- the allocated filter is already address-sorted
    have hfiltLT := hlt.filter (fun b => b.status = .allocated)
    have hAeq : List.insertionSort (bKeyLE fun b => b.startAddress)
        ((⟨i, some "OS", 128, 0, 128, .allocated⟩ :: rest).filter
          fun b => b.status = .allocated) =
        (⟨i, some "OS", 128, 0, 128, .allocated⟩ : MemoryBlock) ::
          rest.filter (fun b => b.status = .allocated) := by
      have hsorted : List.Sorted (bKeyLE fun b => b.startAddress)
          ((⟨i, some "OS", 128, 0, 128, .allocated⟩ :: rest).filter
            fun b => b.status = .allocated) :=
        hfiltLT.imp (fun h => le_of_lt h)
      rw [List.Sorted.insertionSort_eq hsorted, List.filter_cons, if_pos (by simp)]
    have hsz : ∀ b ∈ (⟨i, some "OS", 128, 0, 128, .allocated⟩ : MemoryBlock) ::
        rest.filter (fun b => b.status = .allocated), 0 < b.size := by
      intro b hb
      rcases List.mem_cons.mp hb with rfl | hb
      · norm_num
      · exact (seg_mem _ 0 1024 hseg b
          (List.mem_cons_of_mem _ ((List.filter_sublist _).subset hb))).2.2.2
    have hnos : ∀ b ∈ (⟨i, some "OS", 128, 0, 128, .allocated⟩ : MemoryBlock) ::
        rest.filter (fun b => b.status = .allocated), True := fun _ _ => trivial
    have hsum : sumSizes ((⟨i, some "OS", 128, 0, 128, .allocated⟩ : MemoryBlock) :: rest) =
        1024 := by
      have := seg_sum _ 0 1024 hseg
      omega
    have hrestsz : ∀ b ∈ rest, 0 ≤ b.size := by
      intro b hb
      exact le_of_lt (seg_mem _ 0 1024 hseg b (List.mem_cons_of_mem _ hb)).2.2.2
    have hsumA : sumSizes ((⟨i, some "OS", 128, 0, 128, .allocated⟩ : MemoryBlock) ::
        rest.filter (fun b => b.status = .allocated)) ≤ 1024 := by
      have h1 := sumSizes_filter_le (fun b => b.status = .allocated) rest hrestsz
      simp only [sumSizes, List.map_cons, List.sum_cons] at *
      omega
    rw [compactMemory_char, hAeq]
    -- name the packed list facts
    have hsegP : Seg 0 (sumSizes ((⟨i, some "OS", 128, 0, 128, .allocated⟩ : MemoryBlock) ::
        rest.filter (fun b => b.status = .allocated)))
        ((repackBlocks ((⟨i, some "OS", 128, 0, 128, .allocated⟩ : MemoryBlock) ::
          rest.filter (fun b => b.status = .allocated)) 0 0).1) := by
      have := repack_seg _ 0 0 hsz
      rwa [zero_add] at this
    have hsnd : (repackBlocks ((⟨i, some "OS", 128, 0, 128, .allocated⟩ : MemoryBlock) ::
        rest.filter (fun b => b.status = .allocated)) 0 0).2 =
        sumSizes ((⟨i, some "OS", 128, 0, 128, .allocated⟩ : MemoryBlock) ::
          rest.filter (fun b => b.status = .allocated)) := by
      rw [repackBlocks_snd, zero_add]
    have hosP : List.filter (fun b => b.processName = some "OS")
        ((repackBlocks ((⟨i, some "OS", 128, 0, 128, .allocated⟩ : MemoryBlock) ::
          rest.filter (fun b => b.status = .allocated)) 0 0).1) =
        [⟨1, some "OS", 128, 0, 128, .allocated⟩] := by
      rw [repackBlocks]
      rw [List.filter_cons, if_pos (by simp)]
      have hnone : List.filter (fun b => b.processName = some "OS")
          ((repackBlocks (rest.filter fun b => b.status = .allocated) (0 + 128) (0 + 1)).1) =
          [] := by
        rw [List.filter_eq_nil_iff]
        intro b hb
        have := repackBlocks_no_os (rest.filter fun b => b.status = .allocated)
          (fun x hx => hrestos x ((List.filter_sublist _).subset hx)) (0 + 128) (0 + 1) b hb
        simpa using this
      rw [hnone]
      norm_num
    set A := (⟨i, some "OS", 128, 0, 128, .allocated⟩ : MemoryBlock) ::
      rest.filter (fun b => b.status = .allocated) with hA
    split
    · rename_i hfree
      constructor
      · rw [seg_append]
        refine ⟨sumSizes A, hsegP, ?_⟩
        refine ⟨hsnd,
          by show (1024 : ℤ) = sumSizes A + (1024 - sumSizes A); omega,
          by show (0 : ℤ) < 1024 - sumSizes A; omega, ?_⟩
        show sumSizes A + (1024 - sumSizes A) = (1024 : ℤ)
        omega
      · refine ⟨1, ?_⟩
        rw [List.filter_append, hosP]
        rw [List.filter_cons, if_neg (by simp)]
        rfl
    · rename_i hfree
      constructor
      · have hA1024 : sumSizes A = 1024 := by omega
        rw [← hA1024]
        exact hsegP
      · exact ⟨1, hosP⟩

/-- The canonical two-block layout (the reserved kernel block plus one free
block) satisfies the memory invariant. -/
lemma memInv_two_block :
    MemInv [⟨1, some "OS", 128, 0, 128, .allocated⟩, ⟨2, none, 896, 128, 1024, .free⟩] := by
  constructor
  · refine ⟨rfl, by norm_num, by norm_num, by norm_num, by norm_num, by norm_num, ?_⟩
    show (0 : ℤ) + 128 + 896 = 1024
    norm_num
  · exact ⟨1, by decide⟩

/-- Deallocating from the initial one-block layout establishes the memory
invariant. -/
lemma memInv_dealloc_initial : MemInv (deallocateMemory initialMemoryBlocks) := by
  rw [show deallocateMemory initialMemoryBlocks =
    [⟨1, some "OS", 128, 0, 128, .allocated⟩, ⟨2, none, 896, 128, 1024, .free⟩]
    from by decide]
  exact memInv_two_block

/-- Compacting the initial one-block layout establishes the memory
invariant. -/
lemma memInv_compact_initial : MemInv (compactMemory initialMemoryBlocks) := by
  rw [show compactMemory initialMemoryBlocks =
    [⟨1, some "OS", 128, 0, 128, .allocated⟩, ⟨2, none, 896, 128, 1024, .free⟩]
    from by decide]
  exact memInv_two_block

/-- On the initial layout every allocation fails (there is no free block at
all), leaving the state unchanged. -/
lemma alloc_initial (algorithm : AllocAlg) (processSize : ℤ) :
    memStep (.alloc algorithm processSize) initialMemoryBlocks = initialMemoryBlocks := by
  cases algorithm <;> rfl

/-- Valid calls preserve the memory invariant along a whole run. -/
lemma memInv_foldl : ∀ (ops : List MemOp) (blocks : List MemoryBlock),
    (∀ op ∈ ops, validOp op = true) → MemInv blocks →
    MemInv (ops.foldl (fun bs op => memStep op bs) blocks) := by
  intro ops
  induction ops with
  | nil => intro blocks _ h; simpa using h
  | cons op rest ih =>
    intro blocks hv hinv
    rw [List.foldl_cons]
    refine ih _ (fun x hx => hv x (List.mem_cons_of_mem _ hx)) ?_
    cases op with
    | alloc algorithm processSize =>
      have hsz : 0 < processSize := by
        have := hv _ (List.mem_cons_self _ _)
        simpa [validOp] using this
      show MemInv (memStep (.alloc algorithm processSize) blocks)
      rw [memStep]
      cases h : allocateMemory algorithm processSize blocks with
      | none => simpa using hinv
      | some bs' =>
        show MemInv ((some bs').getD blocks)
        exact alloc_preserves algorithm processSize hsz blocks bs' hinv h
    | dealloc => exact dealloc_preserves blocks hinv
    | compact => exact compact_preserves blocks hinv

/-- A run that contains at least one deallocate or compact call ends in an
invariant state. -/
lemma memRun_inv : ∀ (ops : List MemOp),
    (∀ op ∈ ops, validOp op = true) →
    (∃ op ∈ ops, op = .dealloc ∨ op = .compact) →
    MemInv (memRun ops) := by
  intro ops
  induction ops with
  | nil =>
    intro _ hex
    obtain ⟨op, hop, -⟩ := hex
    simp at hop
  | cons op rest ih =>
    intro hv hex
    cases op with
    | alloc algorithm processSize =>
      have hstep : memRun (.alloc algorithm processSize :: rest) = memRun rest := by
        rw [memRun, memRun, List.foldl_cons, alloc_initial algorithm processSize]
      rw [hstep]
      refine ih (fun x hx => hv x (List.mem_cons_of_mem _ hx)) ?_
      obtain ⟨x, hx, hxd⟩ := hex
      rcases List.mem_cons.mp hx with rfl | hx
      · rcases hxd with h | h <;> simp at h
      · exact ⟨x, hx, hxd⟩
    | dealloc =>
      rw [memRun, List.foldl_cons]
      exact memInv_foldl rest _ (fun x hx => hv x (List.mem_cons_of_mem _ hx))
        memInv_dealloc_initial
    | compact =>
      rw [memRun, List.foldl_cons]
      exact memInv_foldl rest _ (fun x hx => hv x (List.mem_cons_of_mem _ hx))
        memInv_compact_initial

/-- Counterexample to C2 as stated: starting from the initial layout, the free
896 KB of the 1024 KB space are not represented by any block, so after a
sequence consisting of one (failed) allocate call the block sizes sum to 128,
not 1024. -/
theorem c2_counterexample :
    sumSizes (memRun [.alloc .first 100]) = 128 ∧
      sumSizes (memRun [.alloc .first 100]) ≠ 1024 := by
  decide

/-- C2 (amended): after any finite sequence of allocate (with positive request
size), deallocate and compact calls that contains at least one deallocate or
compact, the block sizes sum to 1024, the blocks are pairwise non-overlapping,
every block satisfies `endAddress - startAddress = size`, and the list is
sorted by start address. -/
theorem c2_memory_invariants (ops : List MemOp)
    (hvalid : ∀ op ∈ ops, validOp op = true)
    (hops : ∃ op ∈ ops, op = .dealloc ∨ op = .compact) :
    sumSizes (memRun ops) = 1024 ∧
    (memRun ops).Pairwise (fun x y =>
      x.endAddress ≤ y.startAddress ∨ y.endAddress ≤ x.startAddress) ∧
    (∀ b ∈ memRun ops, b.endAddress - b.startAddress = b.size) ∧
    (memRun ops).Pairwise (fun x y => x.startAddress ≤ y.startAddress) := by
  obtain ⟨hseg, -⟩ := memRun_inv ops hvalid hops
  refine ⟨?_, ?_, ?_, ?_⟩
  · have := seg_sum _ 0 1024 hseg
    omega
  · exact (seg_nonoverlap _ 0 1024 hseg).imp Or.inl
  · intro b hb
    have := (seg_mem _ 0 1024 hseg b hb).2.2.1
    omega
  · exact (seg_pairwise_lt _ 0 1024 hseg).imp (fun h => le_of_lt h)

/-- Witness for C2: a concrete run with a deallocate, a successful best-fit
allocation and a compaction. -/
theorem c2_memory_invariants_witness :
    ((∀ op ∈ [MemOp.dealloc, .alloc .best 100, .compact], validOp op = true) ∧
      (∃ op ∈ [MemOp.dealloc, .alloc .best 100, .compact],
        op = .dealloc ∨ op = .compact)) ∧
    (sumSizes (memRun [MemOp.dealloc, .alloc .best 100, .compact]) = 1024 ∧
      (memRun [MemOp.dealloc, .alloc .best 100, .compact]).Pairwise (fun x y =>
        x.endAddress ≤ y.startAddress ∨ y.endAddress ≤ x.startAddress) ∧
      (∀ b ∈ memRun [MemOp.dealloc, .alloc .best 100, .compact],
        b.endAddress - b.startAddress = b.size) ∧
      (memRun [MemOp.dealloc, .alloc .best 100, .compact]).Pairwise (fun x y =>
        x.startAddress ≤ y.startAddress)) :=
  ⟨⟨by decide, by decide⟩,
    c2_memory_invariants [MemOp.dealloc, .alloc .best 100, .compact]
      (by decide) (by decide)⟩

end OSim
